import Mathlib

/-!
Verification development for the `taranis` EV charging-station simulator.

Shallow embedding conventions:
* `chrono` timestamps (`NaiveDateTime`, `DateTime<Utc>`) are modelled as `ℤ`,
  a count of milliseconds since an epoch; `NaiveTime` (a time of day) is `ℕ`,
  milliseconds since local midnight.  `date()` is floor division by the length
  of a day and `time()` the remainder, which agrees with the calendar types for
  all values; the `<`/`>=` comparisons of the source are integer comparisons.
* `f64` quantities (prices, powers, energy amounts) are modelled as `ℚ`.
* A Rust function that can panic (`unwrap`, slice indexing, explicit `panic!`)
  is modelled in the `Option` monad with `none` for the panic; fallible
  functions returning `Result<_, String>` are modelled with `Except String`.
* The global virtual clock (`get_mock_now`), the global tariff table and the
  configured acceleration factor are threaded through as explicit parameters.
-/

/-- Milliseconds in one day. -/
def dayMs : ℕ := 86400000

/-- `NaiveTime::from_hms_opt(0,0,0)`: midnight, the smallest time of day. -/
def MIDNIGHT : ℕ := 0

/-- The calendar date of a timestamp (`NaiveDateTime::date`), as a day number.
Floor division matches the calendar types also for negative timestamps. -/
def dateOf (t : ℤ) : ℤ := t.ediv dayMs

/-- The time-of-day part of a timestamp (`NaiveDateTime::time`), in ms. -/
def msOfDay (t : ℤ) : ℕ := (t.emod dayMs).toNat

/-- `chrono::Duration::num_seconds` on a duration of `d` milliseconds:
truncation toward zero, as in the source's `duration.num_seconds()`. -/
def numSeconds (d : ℤ) : ℤ := d.tdiv 1000

/-- The `expr as i64` cast applied to an `f64`: truncation toward zero. -/
def ratTrunc (q : ℚ) : ℤ := q.num.tdiv (q.den : ℤ)

/-- Rust's `f64::round`: round half away from zero. -/
def rustRound (q : ℚ) : ℤ := if 0 ≤ q then ⌊q + 1/2⌋ else ⌈q - 1/2⌉

/-- `round_to_precision(value, decimal_places)` from `price.rs`:
`(value * multiplier).round() / multiplier`. -/
def round_to_precision (value : ℚ) (decimal_places : ℕ) : ℚ :=
  let multiplier : ℚ := 10 ^ decimal_places
  (rustRound (value * multiplier) : ℚ) / multiplier

/-- `TimePeriod` from `price.rs` (`end` is a Lean keyword, hence `end_`). -/
structure TimePeriod where
  start : ℕ
  end_ : ℕ
  price : ℚ
deriving DecidableEq, Repr

/-- `Prices` from `price.rs`. -/
structure Prices where
  periods : List TimePeriod
  service_fee : ℚ
  is_optimized : Bool
deriving DecidableEq, Repr

/-- `Prices::new`. -/
def Prices.new : Prices := ⟨[], 0, false⟩

/-- `hours_to_midnight(time)` from `price.rs`:
`24.0 + midnight.signed_duration_since(time).num_seconds() as f64 / 3600.0`. -/
def hours_to_midnight (time : ℕ) : ℚ :=
  24 + (numSeconds (0 - (time : ℤ)) : ℚ) / 3600

/-- The midnight-crossing split pass of `Prices::optimize` (`price.rs` lines
52-70): periods with `start > end && end != MIDNIGHT` are split in two at
midnight and counted. Returns `(cnt, new_periods)`. -/
def splitStep (acc : ℕ × List TimePeriod) (q : TimePeriod) : ℕ × List TimePeriod :=
  if q.start > q.end_ ∧ q.end_ ≠ MIDNIGHT then
    (acc.1 + 1, acc.2 ++ [⟨q.start, MIDNIGHT, q.price⟩, ⟨MIDNIGHT, q.end_, q.price⟩])
  else (acc.1, acc.2 ++ [q])

/-- See `splitStep`. -/
def splitAtMidnight (periods : List TimePeriod) : ℕ × List TimePeriod :=
  periods.foldl splitStep (0, [])

/-- `new_periods.sort_by(|a, b| a.start.cmp(&b.start))`: a stable sort by
`start`.  Rust's `sort_by` is documented stable, and any two stable sorts by
the same key are extensionally equal; we use insertion sort placing each
element before the strictly greater ones. -/
def insertByStart (q : TimePeriod) : List TimePeriod → List TimePeriod
  | [] => [q]
  | r :: rest => if q.start ≤ r.start then q :: r :: rest else r :: insertByStart q rest

/-- See `insertByStart`. -/
def sortByStart : List TimePeriod → List TimePeriod
  | [] => []
  | q :: rest => insertByStart q (sortByStart rest)

/-- The error message of the overlapping-price check in `Prices::optimize`. -/
def overlapMsg : String := "Overlapping time periods with different prices found"

/-- The merge loop of `Prices::optimize` (`price.rs` lines 82-126), after the
first element has initialised `current_period`.  `cur` is `current_period`,
`acc` is `merged_periods`. -/
def mergeLoop (cur : TimePeriod) : List TimePeriod → List TimePeriod →
    Except String (List TimePeriod)
  | [], acc => .ok (acc ++ [cur])
  | q :: rest, acc =>
    if q.start < cur.end_ then
      if q.price ≠ cur.price then .error overlapMsg
      else mergeLoop ⟨cur.start, q.end_, cur.price⟩ rest acc
    else if q.start > cur.end_ then
      mergeLoop q rest (acc ++ [cur, ⟨cur.end_, q.start, 0⟩])
    else
      mergeLoop q rest (acc ++ [cur])

/-- The whole merge phase: the first period initialises `current_period`,
inserting a zero-price gap from midnight when it does not start at midnight
(`price.rs` lines 110-120). -/
def mergePeriods : List TimePeriod → Except String (List TimePeriod)
  | [] => .ok []
  | q :: rest =>
    mergeLoop q rest (if q.start ≠ MIDNIGHT then [⟨MIDNIGHT, q.start, 0⟩] else [])

/-- `Prices::optimize` (`price.rs` lines 46-142). -/
def Prices.optimize (p : Prices) : Except String Prices :=
  if p.periods.isEmpty then .ok p
  else
    let sp := splitAtMidnight p.periods
    if sp.1 > 1 then
      .error (toString sp.1 ++ " time periods cross midnight, please check your input")
    else
      match mergePeriods (sortByStart sp.2) with
      | .error e => .error e
      | .ok merged =>
        match merged.getLast? with
        | none =>
          -- `merged_periods.last().unwrap()` would panic; unreachable because
          -- the period list is non-empty here.
          .error ("panic: merged_periods is empty")
        | some lastP =>
          let finalPeriods :=
            if lastP.end_ ≠ MIDNIGHT then merged ++ [⟨lastP.end_, MIDNIGHT, 0⟩] else merged
          .ok { p with periods := finalPeriods, is_optimized := true }

/-- `Prices::calc_day_price` (`price.rs` lines 218-244).  The slice
`periods[..len-1]` is `dropLast`; `periods.last().unwrap()` panics on an empty
list (so does the slice), modelled by the error branch, unreachable for tables
produced by `optimize`. -/
def Prices.calc_day_price (p : Prices) (start end_ : ℕ) (power : ℚ) :
    Except String ℚ :=
  if ¬ p.is_optimized then
    .error ("Prices have not been optimized, cannot calculate day price")
  else if start ≥ end_ then
    .error ("Start time must be before end time")
  else
    match p.periods.getLast? with
    | none => .error ("panic: periods is empty")
    | some lastP =>
      let body := p.periods.dropLast.foldl
        (fun acc q =>
          if q.start < end_ ∧ q.end_ > start then
            let overlap_start := max start q.start
            let overlap_end := min end_ q.end_
            let duration : ℚ :=
              (numSeconds ((overlap_end : ℤ) - (overlap_start : ℤ)) : ℚ) / 3600
            acc + duration * q.price * power + p.service_fee * power * duration
          else acc) 0
      if end_ > lastP.start then
        let overlap_start := max start lastP.start
        let duration : ℚ := (numSeconds ((end_ : ℤ) - (overlap_start : ℤ)) : ℚ) / 3600
        .ok (body + duration * lastP.price * power + p.service_fee * power * duration)
      else
        .ok body

/-- `Prices::calc_day_price_until_midnight` (`price.rs` lines 246-272). -/
def Prices.calc_day_price_until_midnight (p : Prices) (start : ℕ) (power : ℚ) :
    Except String ℚ :=
  if ¬ p.is_optimized then
    .error ("Prices have not been optimized, cannot calculate day price until midnight")
  else
    match p.periods.getLast? with
    | none => .error ("panic: periods is empty")
    | some lastP =>
      let body := p.periods.dropLast.foldl
        (fun acc q =>
          if q.end_ > start then
            let overlap_start := max start q.start
            let duration : ℚ :=
              (numSeconds ((q.end_ : ℤ) - (overlap_start : ℤ)) : ℚ) / 3600
            acc + duration * q.price * power + p.service_fee * power * duration
          else acc) 0
      let overlap_start := max start lastP.start
      let duration := hours_to_midnight overlap_start
      .ok (body + duration * lastP.price * power + p.service_fee * power * duration)

/-- The day-walking loop of `Prices::calc_price` (`price.rs` lines 290-294):
one `calc_day_price_until_midnight` per day strictly before `end.date()`,
starting from `startT` on the first day and midnight afterwards. -/
def calcDays (p : Prices) (power : ℚ) : ℕ → ℕ → Except String ℚ
  | _, 0 => .ok 0
  | startT, n + 1 => do
    let x ← p.calc_day_price_until_midnight startT power
    let y ← calcDays p power 0 n
    .ok (x + y)

/-- `Prices::calc_price` (`price.rs` lines 274-301). -/
def Prices.calc_price (p : Prices) (start end_ : ℤ) (power : ℚ) :
    Except String ℚ :=
  if ¬ p.is_optimized then
    .error ("Prices not have been optimized, cannot calculate price")
  else if start ≥ end_ then
    .error ("Start time must be before end time")
  else
    let n := (dateOf end_ - dateOf start).toNat
    do
      let t ← calcDays p power (msOfDay start) n
      let t2 ←
        if msOfDay end_ ≠ MIDNIGHT then
          p.calc_day_price (if n = 0 then msOfDay start else MIDNIGHT) (msOfDay end_) power
        else .ok 0
      .ok (round_to_precision (t + t2) 2)

/-- `DEFAULT_PRICES` from `price.rs` (lines 147-196). -/
def DEFAULT_PRICES : Prices :=
  { periods :=
      [ ⟨MIDNIGHT, 25200000, 0.4⟩       -- 00:00-07:00 valley
      , ⟨25200000, 36000000, 0.7⟩       -- 07:00-10:00 flat
      , ⟨36000000, 54000000, 1.0⟩       -- 10:00-15:00 peak
      , ⟨54000000, 64800000, 0.7⟩       -- 15:00-18:00 flat
      , ⟨64800000, 75600000, 1.0⟩       -- 18:00-21:00 peak
      , ⟨75600000, 82800000, 0.7⟩       -- 21:00-23:00 flat
      , ⟨82800000, MIDNIGHT, 0.4⟩ ]     -- 23:00-24:00 valley
    service_fee := 0.8
    is_optimized := true }

/-- `ChargeType` from `conf.rs`. -/
inductive ChargeType
  | Fast
  | Slow
deriving DecidableEq, Repr

/-- `ChargeStatus` from `detail.rs`. -/
inductive ChargeStatus
  | Waiting
  | Charging
  | Completed
  | Interrupted
deriving DecidableEq, Repr

/-- `ChargingDetail` from `detail.rs`. -/
structure ChargingDetail where
  id : ℕ
  request_amount : ℚ
  type_ : ChargeType
  already_charged : ℚ
  start_time : Option ℤ
  last_update_time : Option ℤ
  end_time : Option ℤ
  charge_cost : ℚ
  service_fee : ℚ
  total_cost : ℚ
  status : ChargeStatus
deriving DecidableEq, Repr

/-- `ChargingDetail::is_ready`. -/
def ChargingDetail.is_ready (d : ChargingDetail) : Bool :=
  d.already_charged == 0 && d.start_time.isNone && d.last_update_time.isNone
    && d.end_time.isNone && d.charge_cost == 0 && d.service_fee == 0
    && d.total_cost == 0 && d.status == ChargeStatus.Waiting

/-- `ChargingDetail::start` (`detail.rs` lines 81-89); the `panic!` taken when
the status is not `Waiting` is the `none` case, and happens before any field
is written. -/
def ChargingDetail.start (d : ChargingDetail) (time : ℤ) : Option ChargingDetail :=
  if d.status ≠ ChargeStatus.Waiting then none
  else some { d with start_time := some time, last_update_time := some time,
                     status := ChargeStatus.Charging }

/-- `ChargingDetail::update_state` (`detail.rs` lines 92-102); `none` is the
`panic!` on a status other than `Charging`, raised before any write. -/
def ChargingDetail.update_state (d : ChargingDetail) (already_charged charge_cost service_fee : ℚ)
    (time : ℤ) : Option ChargingDetail :=
  if d.status ≠ ChargeStatus.Charging then none
  else some { d with last_update_time := some time, already_charged := already_charged,
                     charge_cost := charge_cost, service_fee := service_fee,
                     total_cost := round_to_precision (charge_cost + service_fee) 2 }

/-- `ChargingDetail::complete` (`detail.rs` lines 105-117). -/
def ChargingDetail.complete (d : ChargingDetail) (already_charged charge_coost service_fee : ℚ)
    (time : ℤ) : Option ChargingDetail :=
  if d.status ≠ ChargeStatus.Charging then none
  else some { d with last_update_time := some time, already_charged := already_charged,
                     charge_cost := charge_coost, service_fee := service_fee,
                     total_cost := round_to_precision (charge_coost + service_fee) 2,
                     end_time := some time, status := ChargeStatus.Completed }

/-- `ChargingDetail::interrupt` (`detail.rs` lines 120-131): legal from
`Charging` or `Waiting`; does not set `end_time`. -/
def ChargingDetail.interrupt (d : ChargingDetail) (already_charged charge_coost service_fee : ℚ)
    (time : ℤ) : Option ChargingDetail :=
  if d.status ≠ ChargeStatus.Charging ∧ d.status ≠ ChargeStatus.Waiting then none
  else some { d with last_update_time := some time, already_charged := already_charged,
                     charge_cost := charge_coost, service_fee := service_fee,
                     total_cost := round_to_precision (charge_coost + service_fee) 2,
                     status := ChargeStatus.Interrupted }

/-- `ChargingDetail::clone_start_time` (`detail.rs` lines 134-140): panics
(`none`) when the status is `Waiting`, and on the `unwrap` of an absent
`start_time`. -/
def ChargingDetail.clone_start_time (d : ChargingDetail) : Option ℤ :=
  if d.status = ChargeStatus.Waiting then none else d.start_time

/-- `ChargingDetail::get_estimated_end_time` (`detail.rs` lines 148-156).
Outer `Option` is panic (the `unwrap` of `start_time`), inner `Option` is the
function's own `Option` result (`None` when not charging). -/
def ChargingDetail.get_estimated_end_time (d : ChargingDetail) (power : ℚ) :
    Option (Option ℤ) :=
  if d.status ≠ ChargeStatus.Charging then some none
  else
    match d.start_time with
    | none => none
    | some st =>
      let remaining_amount := d.request_amount - d.already_charged
      let estimated_duration := remaining_amount / power
      some (some (st + 1000 * ratTrunc (estimated_duration * 3600)))

/-- `already_charged(power, detail, time)` from `charge.rs` (lines 231-240):
hours since the detail's start time times the power.  Calls
`clone_start_time`, hence can panic (`none`). -/
def already_charged (power : ℚ) (d : ChargingDetail) (time : ℤ) : Option ℚ :=
  d.clone_start_time.map fun start_time =>
    ((numSeconds (time - start_time) : ℚ) / 3600) * power

/-- Modelled from the spec: `calc_price_with_tz` is declared in the
repository's `price.rs` (it is imported from `crate::price` by `charge.rs`)
but its definition is not under `src/`.  Per spec §4.1 and §6 it converts both
UTC timestamps to the configured timezone — a uniform shift `tzOffset`, which
preserves ordering and durations — and computes the pair
(energy cost, service-fee cost) over `[start, end)`: the energy component sums
`overlap_hours × power × period.price` and the fee component
`overlap_hours × power × service_fee`, i.e. the two addends of the sum
computed by `Prices::calc_price`; it inherits that function's error cases
(`InvalidRange` when start ≥ end, `NotOptimized` when the table is not
normalized).  The two components are obtained by running `calc_price` with
the other component's rate zeroed out. -/
def calc_price_with_tz (prices : Prices) (tzOffset : ℤ) (start end_ : ℤ) (power : ℚ) :
    Except String (ℚ × ℚ) := do
  let s := start + tzOffset
  let e := end_ + tzOffset
  let energy ← Prices.calc_price { prices with service_fee := 0 } s e power
  let fee ← Prices.calc_price
    { prices with periods := prices.periods.map fun q => { q with price := 0 } } s e power
  pure (energy, fee)

/-- `Charge` from `charge.rs`.  The `charge_id` field (a random UUID) plays no
role in any station operation and is omitted. -/
structure Charge where
  type_ : ChargeType
  power : ℚ
  size : ℕ
  queue : List ChargingDetail
  working : Bool
deriving DecidableEq, Repr

/-- `Charge::add_detail` (`charge.rs` lines 44-58): type mismatch and a full
queue are logged no-ops. -/
def Charge.add_detail (c : Charge) (detail : ChargingDetail) : Charge :=
  if detail.type_ ≠ c.type_ then c
  else if c.queue.length < c.size then { c with queue := c.queue ++ [detail] }
  else c

/-- `Charge::start_charging` (`charge.rs` lines 61-82): logged no-op on an
empty queue or when already working; otherwise sets `working` and starts the
head (whose `start` panics unless it is `Waiting`). -/
def Charge.start_charging (now : ℤ) (c : Charge) : Option Charge :=
  match c.queue with
  | [] => some c
  | d :: rest =>
    if c.working then some c
    else (d.start now).map fun d' => { c with working := true, queue := d' :: rest }

/-- `Charge::update_charging` (`charge.rs` lines 85-104):
`calc_price_with_tz(...).unwrap()` and the session-level panics are `none`. -/
def Charge.update_charging (prices : Prices) (tzOffset now : ℤ) (c : Charge) :
    Option Charge :=
  match c.queue with
  | [] => some c
  | d :: rest =>
    if !c.working then some c
    else do
      let st ← d.clone_start_time
      let cost ← (calc_price_with_tz prices tzOffset st now c.power).toOption
      let ac ← already_charged c.power d now
      let d' ← d.update_state ac cost.1 cost.2 now
      some { c with queue := d' :: rest }

/-- `Charge::complete_charging` (`charge.rs` lines 107-130): returns the
completed head after removing it and clearing `working`; outer `Option` is
panic, inner the function's `Option` result. -/
def Charge.complete_charging (prices : Prices) (tzOffset now : ℤ) (c : Charge) :
    Option (Option (ChargingDetail × Charge)) :=
  match c.queue with
  | [] => some none
  | d :: rest =>
    if !c.working then some none
    else
      (do
        let st ← d.clone_start_time
        let cost ← (calc_price_with_tz prices tzOffset st now c.power).toOption
        let ac ← already_charged c.power d now
        let d' ← d.complete ac cost.1 cost.2 now
        some (d', { c with queue := rest, working := false })).map some

/-- `Charge::cancel_charging` (`charge.rs` lines 133-160).  Outer `Option` is
panic; the `Except` is the Rust `Result`.  In the non-head branch the first
argument `already_charged(...)` is evaluated before `interrupt`, exactly as in
the source. -/
def Charge.cancel_charging (prices : Prices) (tzOffset now : ℤ) (c : Charge)
    (detail_id : ℕ) : Option (Except String (ChargingDetail × Charge)) :=
  match c.queue.findIdx? (fun d => d.id == detail_id) with
  | none => some (.error ("no such charging detail"))
  | some pos =>
    match c.queue[pos]? with
    | none => none
    | some d =>
      if pos = 0 then
        (do
          let st ← d.clone_start_time
          let cost ← (calc_price_with_tz prices tzOffset st now c.power).toOption
          let ac ← already_charged c.power d now
          let d' ← d.interrupt ac cost.1 cost.2 now
          some (d', { c with queue := c.queue.eraseIdx pos, working := false })).map .ok
      else
        (do
          let ac ← already_charged c.power d now
          let d' ← d.interrupt ac 0 0 now
          some (d', { c with queue := c.queue.eraseIdx pos })).map .ok

/-- `Charge::close` (`charge.rs` lines 168-187): always clears `working`;
interrupts and returns the head with cost-to-date, discarding the rest of the
queue. -/
def Charge.close (prices : Prices) (tzOffset now : ℤ) (c : Charge) :
    Option (Option ChargingDetail × Charge) :=
  match c.queue with
  | [] => some (none, { c with working := false })
  | d :: _ => do
    let st ← d.clone_start_time
    let cost ← (calc_price_with_tz prices tzOffset st now c.power).toOption
    let ac ← already_charged c.power d now
    let d' ← d.interrupt ac cost.1 cost.2 now
    some (some d', { c with queue := [], working := false })

/-- `Charge::breakdown` (`charge.rs` lines 190-192): delegates to `close`. -/
def Charge.breakdown (prices : Prices) (tzOffset now : ℤ) (c : Charge) :
    Option (Option ChargingDetail × Charge) :=
  c.close prices tzOffset now

/-- `Charge::complete_interval` (`charge.rs` lines 205-228), in milliseconds.
`speed` is `CONF.time.speed`; `millis as u64` wraps negative values modulo
`2^64`; a zero `speed` makes the `u64` division panic (`none`). -/
def Charge.complete_interval (speed : ℕ) (now : ℤ) (c : Charge) : Option ℕ :=
  match c.queue with
  | [] => some 0
  | d :: _ =>
    if !c.working then some 0
    else
      match d.get_estimated_end_time c.power with
      | none => none
      | some none => some 0
      | some (some end_time) =>
        let millis : ℤ := (end_time - now) + 100
        if speed = 0 then none
        else some ((millis.emod (2 ^ 64)).toNat / speed)

/-- The period sequence forms a contiguous chain whose first period starts at
`s` and in which each period's `end` equals the next period's `start`. -/
def contiguousB (s : ℕ) : List TimePeriod → Bool
  | [] => true
  | q :: rest => q.start == s && contiguousB q.end_ rest

/-- The period sequence is sorted by `start` (non-decreasing). -/
def sortedByStartB : List TimePeriod → Bool
  | [] => true
  | [_] => true
  | q :: r :: rest => q.start ≤ r.start && sortedByStartB (r :: rest)

/-- The `end` of the last period, or `dflt` for the empty list. -/
def lastEnd (dflt : ℕ) (l : List TimePeriod) : ℕ :=
  ((l.getLast?).map TimePeriod.end_).getD dflt

/-- The end of a period as an instant of the day, reading an `end` equal to
`MIDNIGHT` as the end of the day (24:00), the way the table means it. -/
def endValue (q : TimePeriod) : ℕ :=
  if q.end_ = MIDNIGHT then dayMs else q.end_

/-- Two tariff periods overlap: their half-open time-of-day intervals
intersect. -/
def overlapping (a b : TimePeriod) : Prop :=
  max a.start b.start < min (endValue a) (endValue b)

/-- A tariff table that has been normalized: `optimize` succeeded on it and
marked it.  `optimize` sets the flag only when it installs a non-empty period
list, so a normalized table always has one. -/
def Prices.Optimized (p : Prices) : Prop :=
  p.is_optimized = true ∧ p.periods ≠ []

/-- At most one queued session is `Charging`, and only at the head: every
session after the head has a status other than `Charging`. -/
def onlyHeadCharging : List ChargingDetail → Bool
  | [] => true
  | _ :: rest => rest.all fun d => d.status != ChargeStatus.Charging

/-- The queue is non-empty and its head has status `Charging`. -/
def headCharging : List ChargingDetail → Bool
  | [] => false
  | d :: _ => d.status == ChargeStatus.Charging

/-- The station invariant of spec §3: queue length bounded by the capacity,
only the head may be `Charging`, and `working` holds exactly when the queue is
non-empty with a `Charging` head. -/
def Charge.inv (c : Charge) : Bool :=
  decide (c.queue.length ≤ c.size) && onlyHeadCharging c.queue
    && (c.working == headCharging c.queue)

/-- A fresh `Waiting` session (the shape accepted by `handle_new`):
`ChargingDetail::test_new(id)` from `detail.rs`, requesting 30 energy units. -/
def ChargingDetail.test_new (id : ℕ) : ChargingDetail :=
  { id := id, request_amount := 30, type_ := ChargeType.Fast, already_charged := 0,
    start_time := none, last_update_time := none, end_time := none,
    charge_cost := 0, service_fee := 0, total_cost := 0,
    status := ChargeStatus.Waiting }

/-- A session with id 1 that has been charging since timestamp 0. -/
def chargingHead : ChargingDetail :=
  { ChargingDetail.test_new 1 with start_time := some 0, last_update_time := some 0,
                                   status := ChargeStatus.Charging }

/-- A capacity-2 fast station whose head (id 1) is charging since timestamp 0
and whose second queued session (id 2) is still `Waiting`. -/
def stationTwo : Charge :=
  { type_ := ChargeType.Fast, power := 30, size := 2,
    queue := [chargingHead, ChargingDetail.test_new 2], working := true }

/-- A working station whose only queued session is `chargingHead`. -/
def stationOne : Charge :=
  { type_ := ChargeType.Fast, power := 30, size := 2,
    queue := [chargingHead], working := true }

/-- An idle, empty, capacity-2 fast station. -/
def stationIdle : Charge :=
  { type_ := ChargeType.Fast, power := 30, size := 2, queue := [], working := false }

/-- Input periods `[23:00,00:00)@1` and `[23:30,23:45)@2` for the `optimize`
counterexample of C2: they overlap with different prices. -/
def pBadC2 : Prices := ⟨[⟨82800000, 0, 1⟩, ⟨84600000, 85500000, 2⟩], 0, false⟩

/-- What `optimize` actually returns on `pBadC2`. -/
def pBadC2res : Prices :=
  ⟨[⟨0, 82800000, 0⟩, ⟨82800000, 0, 1⟩, ⟨0, 84600000, 0⟩,
    ⟨84600000, 85500000, 2⟩, ⟨85500000, 0, 0⟩], 0, true⟩

/-- The same input as `pBadC2`, for the idempotence counterexample of C7. -/
def pBadC7 : Prices := ⟨[⟨82800000, 0, 1⟩, ⟨84600000, 85500000, 2⟩], 0, false⟩

/-- What `optimize` returns on `pBadC7`; `optimize` fails on it. -/
def pBadC7res : Prices :=
  ⟨[⟨0, 82800000, 0⟩, ⟨82800000, 0, 1⟩, ⟨0, 84600000, 0⟩,
    ⟨84600000, 85500000, 2⟩, ⟨85500000, 0, 0⟩], 0, true⟩

/-- The input of the source's `test_prices_optimize`: periods 09:00-12:00@50,
11:00-15:00@50 and 16:00-18:00@75, all with `start < end`. -/
def pGood : Prices :=
  ⟨[⟨32400000, 43200000, 50⟩, ⟨39600000, 54000000, 50⟩, ⟨57600000, 64800000, 75⟩], 0, false⟩

/-- What `optimize` returns on `pGood`. -/
def pGoodRes : Prices :=
  ⟨[⟨0, 32400000, 0⟩, ⟨32400000, 54000000, 50⟩, ⟨54000000, 57600000, 0⟩,
    ⟨57600000, 64800000, 75⟩, ⟨64800000, 0, 0⟩], 0, true⟩

/-- A copy of `pGood` for the idempotence witness. -/
def pGood7 : Prices :=
  ⟨[⟨32400000, 43200000, 50⟩, ⟨39600000, 54000000, 50⟩, ⟨57600000, 64800000, 75⟩], 0, false⟩

/-- What `optimize` returns on `pGood7`. -/
def pGood7res : Prices :=
  ⟨[⟨0, 32400000, 0⟩, ⟨32400000, 54000000, 50⟩, ⟨54000000, 57600000, 0⟩,
    ⟨57600000, 64800000, 75⟩, ⟨64800000, 0, 0⟩], 0, true⟩

-- ===== C10 =====
/-- C10: for a table whose period list is empty (and not yet marked optimized),
`optimize` returns `Ok` without marking the table optimized and without adding
any day-covering zero-price period, so every subsequent `calc_price` call on
that table still fails with the NotOptimized error even though `optimize`
reported success. -/
theorem optimize_empty_not_marked (p : Prices) (h : p.periods = [])
    (h2 : p.is_optimized = false) :
    p.optimize = .ok p ∧
      ∀ s e pw, p.calc_price s e pw =
        .error ("Prices not have been optimized, cannot calculate price") := by
  constructor
  · simp [Prices.optimize, h]
  · intro s e pw
    simp [Prices.calc_price, h2]

theorem optimize_empty_not_marked_witness :
    Prices.new.optimize = .ok Prices.new ∧
      Prices.new.calc_price 0 1 1 =
        .error ("Prices not have been optimized, cannot calculate price") :=
  ⟨(optimize_empty_not_marked Prices.new rfl rfl).1,
   (optimize_empty_not_marked Prices.new rfl rfl).2 0 1 1⟩

-- ===== C4 =====
/-- C4: for every session and every session operation called out of order —
`start` when the status is not Waiting, `update_state` or `complete` when the
status is not Charging, `interrupt` when the status is neither Charging nor
Waiting — the operation fails (the source's `panic!`, the InvalidState failure
of spec §4.2/§7, modelled as `none`) and leaves every field of the session
unchanged: in the source the status check precedes every field write, and in
this embedding the failing operation produces no successor state at all. -/
theorem session_out_of_order_fails (d : ChargingDetail) (t : ℤ) (ac cc fee : ℚ) :
    (d.status ≠ ChargeStatus.Waiting → d.start t = none) ∧
    (d.status ≠ ChargeStatus.Charging → d.update_state ac cc fee t = none) ∧
    (d.status ≠ ChargeStatus.Charging → d.complete ac cc fee t = none) ∧
    (d.status ≠ ChargeStatus.Charging ∧ d.status ≠ ChargeStatus.Waiting →
      d.interrupt ac cc fee t = none) := by
  refine ⟨fun h => ?_, fun h => ?_, fun h => ?_, fun h => ?_⟩
  · simp [ChargingDetail.start, h]
  · simp [ChargingDetail.update_state, h]
  · simp [ChargingDetail.complete, h]
  · simp [ChargingDetail.interrupt, h.1, h.2]

theorem session_out_of_order_fails_witness :
    ({ ChargingDetail.test_new 1 with
        status := ChargeStatus.Completed } : ChargingDetail).start 0 = none ∧
    ({ ChargingDetail.test_new 1 with
        status := ChargeStatus.Completed } : ChargingDetail).interrupt 0 0 0 0 = none :=
  ⟨(session_out_of_order_fails _ 0 0 0 0).1 (by decide),
   (session_out_of_order_fails _ 0 0 0 0).2.2.2 ⟨by decide, by decide⟩⟩

-- ===== C1 evaluation =====
/-- C1 (code bug, evaluation at the failing input): cancelling the non-head
queued session (id 2) of a station whose head (id 1) is charging panics — the
`already_charged` argument of the zero-cost `interrupt` call evaluates
`clone_start_time` on a `Waiting` session, which panics — instead of returning
the session Interrupted with zero cost as the claim (and spec §4.3) states. -/
theorem cancel_nonhead_panics :
    Charge.cancel_charging Prices.new 0 0 stationTwo 2 = none := by rfl

-- ===== C2 counterexample =====
/-- C2 (counterexample): on input `[23:00,00:00)@1, [23:30,23:45)@2` — two
overlapping input periods with different prices — `optimize` succeeds (no
Overlap error) and returns a period sequence that is not sorted by start and
does not tile the day, refuting both conjuncts of the claim as stated. -/
theorem optimize_breaks_tiling_cex :
    pBadC2.optimize = .ok pBadC2res ∧
    sortedByStartB pBadC2res.periods = false ∧
    (⟨82800000, 0, 1⟩ : TimePeriod) ∈ pBadC2.periods ∧
    (⟨84600000, 85500000, 2⟩ : TimePeriod) ∈ pBadC2.periods ∧
    overlapping ⟨82800000, 0, 1⟩ ⟨84600000, 85500000, 2⟩ ∧
    (⟨82800000, 0, 1⟩ : TimePeriod).price ≠ (⟨84600000, 85500000, 2⟩ : TimePeriod).price := by
  refine ⟨by rfl, by rfl, by decide, by decide, ?_, by decide⟩
  simp only [overlapping, endValue]
  decide

-- ===== C7 counterexample =====
/-- C7 (counterexample): `optimize` succeeds on
`[23:00,00:00)@1, [23:30,23:45)@2`, but running `optimize` a second time on
the resulting table fails with the Overlap error, so normalization is not
idempotent as stated. -/
theorem optimize_not_idempotent_cex :
    pBadC7.optimize = .ok pBadC7res ∧ pBadC7res.optimize = .error overlapMsg := by
  refine ⟨by rfl, by rfl⟩

-- ===== C3 helpers =====
theorem ratTrunc_helper : ratTrunc (3600 : ℚ) = 3600 := by
  simp [ratTrunc, Rat.num_ofNat, Rat.den_ofNat]

theorem est_end_chargingHead :
    chargingHead.get_estimated_end_time 30 = some (some 3600000) := by
  simp only [ChargingDetail.get_estimated_end_time, chargingHead, ChargingDetail.test_new]
  norm_num [ratTrunc_helper]

/-- C3 (counterexample): a working station whose charging head (request 30 at
power 30, started at time 0) has estimated end time 3,600,000 ms returns a
`complete_interval` of exactly 0 when queried at now = 3,600,100 ms — the
claim says the result is never zero. -/
theorem complete_interval_zero_cex :
    stationOne.complete_interval 1 3600100 = some 0 := by
  simp only [Charge.complete_interval, stationOne]
  simp only [est_end_chargingHead]
  norm_num

-- ===== C3 amended theorem =====
/-- C3 (amended): `complete_interval` returns 0 when the queue is empty or
`working` is false, and 0 when the estimated end time is unavailable; when
working with a charging head and a non-zero acceleration factor it returns
`((estimated_end − now) + 100)` milliseconds cast to `u64` — wrapping modulo
`2^64` when negative, with no positive floor — divided by the acceleration
factor; for a head requesting 30 energy units at power 30 started exactly now
it returns `3600100 / speed` ≈ 3,600,000/speed. -/
theorem complete_interval_formula (c : Charge) (speed : ℕ) (now : ℤ) :
    (c.queue = [] → c.complete_interval speed now = some 0) ∧
    (c.working = false → c.complete_interval speed now = some 0) ∧
    (∀ d rest, c.queue = d :: rest → c.working = true → speed ≠ 0 →
      c.complete_interval speed now =
        match d.get_estimated_end_time c.power with
        | none => none
        | some none => some 0
        | some (some end_time) =>
          some ((((end_time - now) + 100).emod (2 ^ 64)).toNat / speed)) ∧
    (∀ d rest, c.queue = d :: rest → c.working = true → speed ≠ 0 →
      d.request_amount = 30 → d.already_charged = 0 → c.power = 30 →
      d.status = ChargeStatus.Charging → d.start_time = some now →
      c.complete_interval speed now = some (3600100 / speed)) := by
  refine ⟨fun h => ?_, fun h => ?_, fun d rest hq hw hs => ?_, fun d rest hq hw hs h30 h0 hp hst hstart => ?_⟩
  · simp [Charge.complete_interval, h]
  · cases hq : c.queue with
    | nil => simp [Charge.complete_interval, hq]
    | cons d rest => simp [Charge.complete_interval, hq, h]
  · simp only [Charge.complete_interval, hq, hw, Bool.not_true, Bool.false_eq_true, if_false]
    cases hend : d.get_estimated_end_time c.power with
    | none => rfl
    | some o =>
      cases o with
      | none => rfl
      | some e => simp [hs]
  · have hend : d.get_estimated_end_time c.power = some (some (now + 3600000)) := by
      simp only [ChargingDetail.get_estimated_end_time, hst, hstart, h30, h0, hp]
      norm_num [ratTrunc_helper]
    simp only [Charge.complete_interval, hq, hw, Bool.not_true, Bool.false_eq_true, if_false, hend]
    have h1 : now + 3600000 - now + 100 = (3600100 : ℤ) := by ring
    simp only [hs, if_false, h1]
    rw [show ((3600100 : ℤ).emod (2 ^ 64)).toNat = 3600100 from by decide]

theorem complete_interval_formula_witness :
    stationOne.complete_interval 2 0 = some (3600100 / 2) :=
  (complete_interval_formula stationOne 2 0).2.2.2 chargingHead [] rfl rfl
    (by decide) (by decide) (by decide) (by decide) (by decide) (by decide)

-- ===== C5 support =====
theorem until_midnight_ok (p : Prices) (hopt : p.is_optimized = true)
    (hne : p.periods ≠ []) (s : ℕ) (pw : ℚ) :
    ∃ v, p.calc_day_price_until_midnight s pw = .ok v := by
  unfold Prices.calc_day_price_until_midnight
  rw [if_neg (by simp [hopt])]
  cases h : p.periods.getLast? with
  | none => exact absurd (List.getLast?_eq_none_iff.mp h) hne
  | some lastP => exact ⟨_, rfl⟩

theorem day_price_ok (p : Prices) (hopt : p.is_optimized = true)
    (hne : p.periods ≠ []) (s e : ℕ) (hlt : s < e) (pw : ℚ) :
    ∃ v, p.calc_day_price s e pw = .ok v := by
  unfold Prices.calc_day_price
  rw [if_neg (by simp [hopt]), if_neg (by omega)]
  cases h : p.periods.getLast? with
  | none => exact absurd (List.getLast?_eq_none_iff.mp h) hne
  | some lastP =>
    dsimp only
    by_cases hb : e > lastP.start
    · rw [if_pos hb]; exact ⟨_, rfl⟩
    · rw [if_neg hb]; exact ⟨_, rfl⟩

theorem calcDays_ok (p : Prices) (hopt : p.is_optimized = true)
    (hne : p.periods ≠ []) (pw : ℚ) :
    ∀ n s, ∃ v, calcDays p pw s n = .ok v := by
  intro n
  induction n with
  | zero => exact fun s => ⟨0, rfl⟩
  | succ k ih =>
    intro s
    obtain ⟨u, hu⟩ := until_midnight_ok p hopt hne s pw
    obtain ⟨w, hw⟩ := ih 0
    exact ⟨u + w, by simp only [calcDays, hu, hw]; rfl⟩

theorem calc_price_ok (p : Prices) (start end_ : ℤ) (power : ℚ)
  (ho : p.is_optimized = true) (hne : p.periods ≠ []) (hlt : start < end_) :
  ∃ v, p.calc_price start end_ power = .ok v := by
  unfold Prices.calc_price
  rw [if_neg (by simp [ho]), if_neg (by omega)]
  dsimp only
  obtain ⟨t, ht⟩ := calcDays_ok p ho hne power ((dateOf end_ - dateOf start).toNat) (msOfDay start)
  by_cases hm : msOfDay end_ = MIDNIGHT
  · simp only [ht, hm, ne_eq, not_true_eq_false, if_false, reduceIte]
    exact ⟨_, rfl⟩
  · have harg : (if (dateOf end_ - dateOf start).toNat = 0 then msOfDay start else MIDNIGHT)
        < msOfDay end_ := by
      have hday : (dayMs : ℤ) = 86400000 := by norm_num [dayMs]
      have e1 := Int.ediv_add_emod start 86400000
      have e2 := Int.ediv_add_emod end_ 86400000
      have p1 : 0 ≤ start.emod 86400000 := Int.emod_nonneg start (by norm_num)
      have p2 : start.emod 86400000 < 86400000 := Int.emod_lt_of_pos start (by norm_num)
      have p3 : 0 ≤ end_.emod 86400000 := Int.emod_nonneg end_ (by norm_num)
      have p4 : end_.emod 86400000 < 86400000 := Int.emod_lt_of_pos end_ (by norm_num)
      have hMID : MIDNIGHT = 0 := rfl
      have hdiv : ∀ a : ℤ, a.ediv 86400000 = a / 86400000 := fun _ => rfl
      have hmod : ∀ a : ℤ, a.emod 86400000 = a % 86400000 := fun _ => rfl
      simp only [dateOf, msOfDay, hday, hMID, hdiv, hmod] at *
      by_cases hn : (end_ / 86400000 - start / 86400000).toNat = 0
      · rw [if_pos hn]
        omega
      · rw [if_neg hn]
        omega
    obtain ⟨u, hu⟩ := day_price_ok p ho hne _ _ harg power
    simp only [ht, hu, hm, ne_eq, not_false_eq_true, if_true, reduceIte]
    exact ⟨_, rfl⟩

-- ===== C5 theorem =====
/-- C5: `calc_price(start, end, power)` returns the NotOptimized error when
the table has not been optimized, returns the InvalidRange error when the
table is optimized but start ≥ end, and returns `Ok` whenever the table is
optimized (normalized, hence with a non-empty period list) and start < end. -/
theorem calc_price_error_conditions (p : Prices) (start end_ : ℤ) (power : ℚ) :
    (p.is_optimized = false →
      p.calc_price start end_ power =
        .error ("Prices not have been optimized, cannot calculate price")) ∧
    (p.is_optimized = true → start ≥ end_ →
      p.calc_price start end_ power = .error ("Start time must be before end time")) ∧
    (p.Optimized → start < end_ → ∃ v, p.calc_price start end_ power = .ok v) := by
  refine ⟨fun h => ?_, fun h hge => ?_, fun hopt hlt => ?_⟩
  · simp [Prices.calc_price, h]
  · unfold Prices.calc_price
    rw [if_neg (by simp [h]), if_pos hge]
  · exact calc_price_ok p start end_ power hopt.1 hopt.2 hlt

theorem calc_price_error_conditions_witness :
    (Prices.new.calc_price 0 1 1 =
      .error ("Prices not have been optimized, cannot calculate price")) ∧
    (DEFAULT_PRICES.calc_price 1 0 1 = .error ("Start time must be before end time")) ∧
    (∃ v, DEFAULT_PRICES.calc_price 0 1 1 = .ok v) :=
  ⟨(calc_price_error_conditions Prices.new 0 1 1).1 rfl,
   (calc_price_error_conditions DEFAULT_PRICES 1 0 1).2.1 rfl (by decide),
   (calc_price_error_conditions DEFAULT_PRICES 0 1 1).2.2 ⟨rfl, by decide⟩ (by decide)⟩

-- ===== C6 support =====
theorem rustRound_close (q : ℚ) : |(rustRound q : ℚ) - q| ≤ 1/2 := by
  unfold rustRound
  split
  · have h1 := Int.floor_le (q + 1/2)
    have h2 := Int.lt_floor_add_one (q + 1/2)
    rw [abs_le]
    push_cast at h1 h2 ⊢
    constructor <;> linarith
  · have h1 := Int.le_ceil (q - 1/2)
    have h2 := Int.ceil_lt_add_one (q - 1/2)
    rw [abs_le]
    push_cast at h1 h2 ⊢
    constructor <;> linarith

theorem round2_add_bound (x y : ℚ) :
    |round_to_precision (x + y) 2 -
      (round_to_precision x 2 + round_to_precision y 2)| ≤ 1/100 := by
  have key : ∀ z : ℚ, round_to_precision z 2 = (rustRound (z * 100) : ℚ) / 100 := by
    intro z
    unfold round_to_precision
    norm_num
  rw [key, key, key]
  have hA := abs_le.mp (rustRound_close ((x + y) * 100))
  have hB := abs_le.mp (rustRound_close (x * 100))
  have hC := abs_le.mp (rustRound_close (y * 100))
  set A := rustRound ((x + y) * 100) with hAdef
  set B := rustRound (x * 100) with hBdef
  set C := rustRound (y * 100) with hCdef
  have hqb : |((A - B - C : ℤ) : ℚ)| ≤ 3/2 := by
    rw [abs_le]
    push_cast
    constructor <;> linarith [hA.1, hA.2, hB.1, hB.2, hC.1, hC.2]
  have hzb : |A - B - C| ≤ 1 := by
    have hq2 : |((A - B - C : ℤ) : ℚ)| < 2 := lt_of_le_of_lt hqb (by norm_num)
    rw [← Int.cast_abs] at hq2
    have h22 : |A - B - C| < 2 := by exact_mod_cast hq2
    omega
  have heq : (A : ℚ) / 100 - ((B : ℚ) / 100 + (C : ℚ) / 100) = ((A - B - C : ℤ) : ℚ) / 100 := by
    push_cast
    ring
  rw [heq, abs_div, ← Int.cast_abs, abs_of_pos (by norm_num : (0:ℚ) < 100)]
  have hle : ((|A - B - C| : ℤ) : ℚ) ≤ ((1 : ℤ) : ℚ) := Int.cast_le.mpr hzb
  rw [div_le_div_iff₀ (by norm_num) (by norm_num)]
  push_cast at hle ⊢
  linarith [hle]

theorem calcDays_split (p : Prices) (pw : ℚ) (hopt : p.is_optimized = true)
    (hne : p.periods ≠ []) :
    ∀ a b s, 1 ≤ a → ∃ x y, calcDays p pw s a = .ok x ∧ calcDays p pw 0 b = .ok y ∧
      calcDays p pw s (a + b) = .ok (x + y) := by
  intro a
  induction a with
  | zero => intro b s h; omega
  | succ k ih =>
    intro b s _
    rcases Nat.eq_zero_or_pos k with hk0 | hkpos
    · subst hk0
      obtain ⟨u, hu⟩ := until_midnight_ok p hopt hne s pw
      obtain ⟨y, hy⟩ := calcDays_ok p hopt hne pw b 0
      refine ⟨u + 0, y, ?_, hy, ?_⟩
      · simp only [calcDays, hu]
        rfl
      · rw [Nat.succ_add]
        have hz : calcDays p pw 0 (0 + b) = .ok y := by rwa [Nat.zero_add]
        simp only [calcDays, hu, hz]
        show Except.ok (u + y) = Except.ok (u + 0 + y)
        congr 1
        ring
    · obtain ⟨x', y, hx', hy, hxy⟩ := ih b 0 hkpos
      obtain ⟨u, hu⟩ := until_midnight_ok p hopt hne s pw
      refine ⟨u + x', y, ?_, hy, ?_⟩
      · simp only [calcDays, hu, hx']
        rfl
      · rw [Nat.succ_add]
        simp only [calcDays, hu, hxy]
        show Except.ok (u + (x' + y)) = Except.ok (u + x' + y)
        congr 1
        ring

theorem ebind_ok {α β : Type} (a : α) (f : α → Except String β) :
    (Bind.bind (Except.ok a) f) = f a := rfl

theorem calc_price_eq (p : Prices) (s e : ℤ) (pw : ℚ) (ho : p.is_optimized = true)
    (hlt : s < e) (t t2 : ℚ)
    (ht : calcDays p pw (msOfDay s) ((dateOf e - dateOf s).toNat) = .ok t)
    (ht2 : (if msOfDay e ≠ MIDNIGHT then
              p.calc_day_price (if (dateOf e - dateOf s).toNat = 0 then msOfDay s else MIDNIGHT)
                (msOfDay e) pw
            else .ok 0) = .ok t2) :
    p.calc_price s e pw = .ok (round_to_precision (t + t2) 2) := by
  unfold Prices.calc_price
  rw [if_neg (by simp [ho]), if_neg (by omega)]
  dsimp only
  rw [ht]
  rw [ebind_ok]
  by_cases hc : msOfDay e ≠ MIDNIGHT
  · rw [if_pos hc] at ht2
    rw [if_pos hc, ht2, ebind_ok]
  · rw [if_neg hc] at ht2
    injection ht2 with h
    subst h
    rw [if_neg hc, ebind_ok]

-- ===== C6 theorem =====
/-- C6: for every optimized table, every power, and every midnight `m`
strictly between `start` and `end`, all three computations succeed and
`calc_price(start,end,power)` equals
`calc_price(start,m,power) + calc_price(m,end,power)` within a 0.01 rounding
tolerance. -/
theorem calc_price_midnight_split (p : Prices) (start m end_ : ℤ) (power : ℚ)
    (hopt : p.Optimized) (h1 : start < m) (h2 : m < end_) (hm : msOfDay m = 0) :
    ∃ t a b, p.calc_price start end_ power = .ok t ∧
      p.calc_price start m power = .ok a ∧ p.calc_price m end_ power = .ok b ∧
      |t - (a + b)| ≤ 1/100 := by
  obtain ⟨ho, hne⟩ := hopt
  have hday : (dayMs : ℤ) = 86400000 := by norm_num [dayMs]
  have hdiv : ∀ a : ℤ, a.ediv 86400000 = a / 86400000 := fun _ => rfl
  have hmod : ∀ a : ℤ, a.emod 86400000 = a % 86400000 := fun _ => rfl
  have e1 := Int.ediv_add_emod start 86400000
  have e2 := Int.ediv_add_emod m 86400000
  have e3 := Int.ediv_add_emod end_ 86400000
  have p1 : 0 ≤ start.emod 86400000 := Int.emod_nonneg start (by norm_num)
  have p2 : start.emod 86400000 < 86400000 := Int.emod_lt_of_pos start (by norm_num)
  have p3 : 0 ≤ m.emod 86400000 := Int.emod_nonneg m (by norm_num)
  have p4 : m.emod 86400000 < 86400000 := Int.emod_lt_of_pos m (by norm_num)
  have p5 : 0 ≤ end_.emod 86400000 := Int.emod_nonneg end_ (by norm_num)
  have hm' : m % 86400000 = 0 := by
    simp only [msOfDay, hday, hmod] at hm
    omega
  have f4 : 1 ≤ (dateOf m - dateOf start).toNat := by
    simp only [dateOf, hday, hdiv]
    simp only [hmod] at p1 p2 p3
    omega
  have f3 : (dateOf end_ - dateOf start).toNat =
      (dateOf m - dateOf start).toNat + (dateOf end_ - dateOf m).toNat := by
    simp only [dateOf, hday, hdiv]
    simp only [hmod] at p1 p2 p3 p4 p5
    omega
  obtain ⟨x, y, hx, hy, hxy⟩ :=
    calcDays_split p power ho hne (dateOf m - dateOf start).toNat
      (dateOf end_ - dateOf m).toNat (msOfDay start) f4
  have hy' : calcDays p power (msOfDay m) ((dateOf end_ - dateOf m).toNat) = .ok y := by
    rw [hm]; exact hy
  have hxy' : calcDays p power (msOfDay start) ((dateOf end_ - dateOf start).toNat)
      = .ok (x + y) := by rw [f3]; exact hxy
  by_cases he : msOfDay end_ = MIDNIGHT
  · have hT := calc_price_eq p start end_ power ho (lt_trans h1 h2) (x + y) 0 hxy'
      (by rw [if_neg (by simp [he])])
    have hA := calc_price_eq p start m power ho h1 x 0 hx
      (by rw [if_neg (by simp [hm, MIDNIGHT])])
    have hB := calc_price_eq p m end_ power ho h2 y 0 hy'
      (by rw [if_neg (by simp [he])])
    refine ⟨_, _, _, hT, hA, hB, ?_⟩
    simpa [add_zero] using round2_add_bound x y
  · have hlt0 : MIDNIGHT < msOfDay end_ := by
      have := Nat.pos_of_ne_zero (by simpa [MIDNIGHT] using he)
      simpa [MIDNIGHT] using this
    obtain ⟨u, hu⟩ := day_price_ok p ho hne MIDNIGHT (msOfDay end_) hlt0 power
    have hT := calc_price_eq p start end_ power ho (lt_trans h1 h2) (x + y) u hxy'
      (by rw [if_pos he, if_neg (by omega)]; exact hu)
    have hA := calc_price_eq p start m power ho h1 x 0 hx
      (by rw [if_neg (by simp [hm, MIDNIGHT])])
    have hB := calc_price_eq p m end_ power ho h2 y u hy'
      (by
        rw [if_pos he]
        have harg : (if (dateOf end_ - dateOf m).toNat = 0 then msOfDay m else MIDNIGHT)
            = MIDNIGHT := by
          rcases Nat.eq_zero_or_pos ((dateOf end_ - dateOf m).toNat) with h | h
          · rw [if_pos h, hm]; rfl
          · rw [if_neg (by omega)]
        rw [harg]
        exact hu)
    refine ⟨_, _, _, hT, hA, hB, ?_⟩
    have hb := round2_add_bound x (y + u)
    have harg2 : x + y + u = x + (y + u) := by ring
    rw [harg2]
    simpa [add_zero] using hb

theorem calc_price_midnight_split_witness :
    ∃ t a b, DEFAULT_PRICES.calc_price 28800000 129600000 1 = .ok t ∧
      DEFAULT_PRICES.calc_price 28800000 86400000 1 = .ok a ∧
      DEFAULT_PRICES.calc_price 86400000 129600000 1 = .ok b ∧
      |t - (a + b)| ≤ 1/100 :=
  calc_price_midnight_split DEFAULT_PRICES 28800000 86400000 129600000 1
    ⟨rfl, by decide⟩ (by decide) (by decide) (by decide)

-- ===== C9 support =====
theorem ebind_err {α β : Type} (msg : String) (f : α → Except String β) :
    (Bind.bind (Except.error msg) f) = Except.error msg := rfl

theorem calc_price_with_tz_none (prices : Prices) (tz s e : ℤ) (pw : ℚ)
    (h : e ≤ s) : (calc_price_with_tz prices tz s e pw).toOption = none := by
  unfold calc_price_with_tz
  dsimp only
  by_cases ho : prices.is_optimized = true
  · have h1 : Prices.calc_price { prices with service_fee := 0 } (s + tz) (e + tz) pw
        = .error ("Start time must be before end time") := by
      unfold Prices.calc_price
      rw [if_neg (by simp [ho]), if_pos (by omega)]
    rw [h1, ebind_err]
    rfl
  · have h1 : Prices.calc_price { prices with service_fee := 0 } (s + tz) (e + tz) pw
        = .error ("Prices not have been optimized, cannot calculate price") := by
      unfold Prices.calc_price
      rw [if_pos (by simp [ho])]
    rw [h1, ebind_err]
    rfl

theorem calc_price_with_tz_ok (prices : Prices) (tz s e : ℤ) (pw : ℚ)
    (ho : prices.is_optimized = true) (hne : prices.periods ≠ []) (h : s < e) :
    ∃ v, calc_price_with_tz prices tz s e pw = .ok v := by
  unfold calc_price_with_tz
  dsimp only
  obtain ⟨v1, hv1⟩ := calc_price_ok { prices with service_fee := 0 } (s + tz) (e + tz) pw
    ho hne (by omega)
  obtain ⟨v2, hv2⟩ := calc_price_ok
    { prices with periods := prices.periods.map fun q => { q with price := 0 } }
    (s + tz) (e + tz) pw ho (by simpa using hne) (by omega)
  rw [hv1, ebind_ok, hv2, ebind_ok]
  exact ⟨_, rfl⟩

theorem obind_some {α β : Type} (a : α) (f : α → Option β) :
    (Bind.bind (some a) f) = f a := rfl

theorem obind_none {α β : Type} (f : α → Option β) :
    (Bind.bind (none : Option α) f) = none := rfl

-- ===== C9 theorem =====
/-- C9: `update_charging` and `complete_charging` unwrap the pricing result,
whose range check requires start < end; for every working station with a
charging head they panic (hit the unwrap of an `Err`, modelled as `none`)
whenever the tick fires at or before the head's start instant, and complete
without panicking whenever the current virtual time is strictly after the
head's start time (given the globally optimized tariff table). -/
theorem tick_requires_positive_elapsed (prices : Prices) (tz now st : ℤ) (c : Charge)
    (d : ChargingDetail) (rest : List ChargingDetail)
    (hq : c.queue = d :: rest) (hw : c.working = true)
    (hst : d.status = ChargeStatus.Charging) (hstart : d.start_time = some st)
    (hopt : prices.Optimized) :
    (now ≤ st → c.update_charging prices tz now = none ∧
                c.complete_charging prices tz now = none) ∧
    (st < now → (∃ c', c.update_charging prices tz now = some c') ∧
                (∃ r, c.complete_charging prices tz now = some (some r))) := by
  have hclone : d.clone_start_time = some st := by
    rw [ChargingDetail.clone_start_time, if_neg (by rw [hst]; simp), hstart]
  constructor
  · intro hle
    have hcalc := calc_price_with_tz_none prices tz st now c.power hle
    constructor
    · unfold Charge.update_charging
      rw [hq]
      dsimp only
      rw [hw]
      simp only [Bool.not_true, Bool.false_eq_true, if_false]
      rw [hclone, obind_some, hcalc, obind_none]
    · unfold Charge.complete_charging
      rw [hq]
      dsimp only
      rw [hw]
      simp only [Bool.not_true, Bool.false_eq_true, if_false]
      rw [hclone, obind_some, hcalc, obind_none]
      rfl
  · intro hlt
    obtain ⟨cost, hcost⟩ :=
      calc_price_with_tz_ok prices tz st now c.power hopt.1 hopt.2 hlt
    have hac : already_charged c.power d now =
        some ((numSeconds (now - st) : ℚ) / 3600 * c.power) := by
      rw [already_charged, hclone]
      rfl
    have hupd : d.update_state ((numSeconds (now - st) : ℚ) / 3600 * c.power)
        cost.1 cost.2 now =
        some { d with last_update_time := some now,
                      already_charged := (numSeconds (now - st) : ℚ) / 3600 * c.power,
                      charge_cost := cost.1, service_fee := cost.2,
                      total_cost := round_to_precision (cost.1 + cost.2) 2 } := by
      rw [ChargingDetail.update_state, if_neg (by rw [hst]; simp)]
    have hcompl : d.complete ((numSeconds (now - st) : ℚ) / 3600 * c.power)
        cost.1 cost.2 now =
        some { d with last_update_time := some now,
                      already_charged := (numSeconds (now - st) : ℚ) / 3600 * c.power,
                      charge_cost := cost.1, service_fee := cost.2,
                      total_cost := round_to_precision (cost.1 + cost.2) 2,
                      end_time := some now, status := ChargeStatus.Completed } := by
      rw [ChargingDetail.complete, if_neg (by rw [hst]; simp)]
    constructor
    · have heq : c.update_charging prices tz now =
          some { c with queue :=
            { d with last_update_time := some now,
                     already_charged := (numSeconds (now - st) : ℚ) / 3600 * c.power,
                     charge_cost := cost.1, service_fee := cost.2,
                     total_cost := round_to_precision (cost.1 + cost.2) 2 } :: rest } := by
        unfold Charge.update_charging
        rw [hq]
        dsimp only
        rw [hw]
        simp only [Bool.not_true, Bool.false_eq_true, if_false]
        rw [hclone, obind_some, hcost]
        show Bind.bind (some cost) _ = _
        rw [obind_some, hac, obind_some, hupd, obind_some]
      exact ⟨_, heq⟩
    · have heq : c.complete_charging prices tz now =
          some (some
            ({ d with last_update_time := some now,
                      already_charged := (numSeconds (now - st) : ℚ) / 3600 * c.power,
                      charge_cost := cost.1, service_fee := cost.2,
                      total_cost := round_to_precision (cost.1 + cost.2) 2,
                      end_time := some now, status := ChargeStatus.Completed },
             { c with queue := rest, working := false })) := by
        unfold Charge.complete_charging
        rw [hq]
        dsimp only
        rw [hw]
        simp only [Bool.not_true, Bool.false_eq_true, if_false]
        rw [hclone, obind_some, hcost]
        show Option.map _ (Bind.bind (some cost) _) = _
        rw [obind_some, hac, obind_some, hcompl, obind_some]
        rfl
      exact ⟨_, heq⟩

theorem tick_requires_positive_elapsed_witness :
    (stationOne.update_charging DEFAULT_PRICES 0 0 = none ∧
      stationOne.complete_charging DEFAULT_PRICES 0 0 = none) ∧
    ((∃ c', stationOne.update_charging DEFAULT_PRICES 0 1 = some c') ∧
      (∃ r, stationOne.complete_charging DEFAULT_PRICES 0 1 = some (some r))) :=
  ⟨(tick_requires_positive_elapsed DEFAULT_PRICES 0 0 0 stationOne chargingHead []
      rfl rfl (by decide) rfl ⟨rfl, by decide⟩).1 (le_refl 0),
   (tick_requires_positive_elapsed DEFAULT_PRICES 0 1 0 stationOne chargingHead []
      rfl rfl (by decide) rfl ⟨rfl, by decide⟩).2 (by decide)⟩

-- ===== C8 support =====
theorem inv_iff (c : Charge) : c.inv = true ↔
    c.queue.length ≤ c.size ∧ onlyHeadCharging c.queue = true ∧
      c.working = headCharging c.queue := by
  simp [Charge.inv, Bool.and_eq_true, decide_eq_true_iff, beq_iff_eq, and_assoc]

theorem is_ready_waiting (d : ChargingDetail) (h : d.is_ready = true) :
    d.status = ChargeStatus.Waiting := by
  simp only [ChargingDetail.is_ready, Bool.and_eq_true, beq_iff_eq] at h
  exact h.2

theorem tail_props (rest : List ChargingDetail)
    (h : rest.all (fun d => d.status != ChargeStatus.Charging) = true) :
    onlyHeadCharging rest = true ∧ headCharging rest = false := by
  cases rest with
  | nil => exact ⟨rfl, rfl⟩
  | cons r t =>
    simp only [List.all_cons, Bool.and_eq_true] at h
    refine ⟨h.2, ?_⟩
    have hr := h.1
    simp only [bne_iff_ne, ne_eq] at hr
    simp [headCharging, hr]

theorem add_detail_inv (c : Charge) (d : ChargingDetail) (hinv : c.inv = true)
    (hd : d.status = ChargeStatus.Waiting) : (c.add_detail d).inv = true := by
  obtain ⟨h1, h2, h3⟩ := (inv_iff c).mp hinv
  unfold Charge.add_detail
  by_cases ht : d.type_ ≠ c.type_
  · rw [if_pos ht]; exact hinv
  · rw [if_neg ht]
    by_cases hlen : c.queue.length < c.size
    · rw [if_pos hlen]
      rw [inv_iff]
      refine ⟨by simpa using hlen, ?_, ?_⟩
      · cases hq : c.queue with
        | nil => rfl
        | cons a t =>
          rw [hq] at h2
          show ((t ++ [d]).all fun x => x.status != ChargeStatus.Charging) = true
          rw [List.all_append]
          have h2' : (t.all fun x => x.status != ChargeStatus.Charging) = true := h2
          rw [h2']
          simp only [List.all_cons, List.all_nil, hd]
          decide
      · cases hq : c.queue with
        | nil =>
          rw [hq] at h3
          simp only [headCharging] at h3
          show c.working = headCharging [d]
          rw [h3, headCharging, hd]
          decide
        | cons a t =>
          rw [hq] at h3
          exact h3
    · rw [if_neg hlen]; exact hinv

theorem start_charging_inv (now : ℤ) (c : Charge) (hinv : c.inv = true) :
    ∀ c', c.start_charging now = some c' → c'.inv = true := by
  intro c' h
  obtain ⟨h1, h2, h3⟩ := (inv_iff c).mp hinv
  unfold Charge.start_charging at h
  cases hq : c.queue with
  | nil =>
    rw [hq] at h
    injection h with h
    subst h
    exact hinv
  | cons d rest =>
    rw [hq] at h
    dsimp only at h
    by_cases hw : c.working
    · rw [if_pos hw] at h
      injection h with h
      subst h
      exact hinv
    · rw [if_neg hw] at h
      unfold ChargingDetail.start at h
      by_cases hst : d.status ≠ ChargeStatus.Waiting
      · rw [if_pos hst] at h
        exact Option.noConfusion h
      · rw [if_neg hst] at h
        simp only [Option.map_some'] at h
        injection h with h
        subst h
        rw [inv_iff]
        rw [hq] at h1 h2
        refine ⟨by simpa using h1, ?_, ?_⟩
        · exact h2
        · rfl

theorem update_charging_inv (prices : Prices) (tz now : ℤ) (c : Charge)
    (hinv : c.inv = true) :
    ∀ c', c.update_charging prices tz now = some c' → c'.inv = true := by
  intro c' h
  obtain ⟨h1, h2, h3⟩ := (inv_iff c).mp hinv
  unfold Charge.update_charging at h
  cases hq : c.queue with
  | nil =>
    rw [hq] at h
    injection h with h
    subst h
    exact hinv
  | cons d rest =>
    rw [hq] at h
    dsimp only at h
    by_cases hw : c.working
    · rw [hw] at h
      simp only [Bool.not_true, Bool.false_eq_true, if_false] at h
      cases hcl : d.clone_start_time with
      | none => rw [hcl, obind_none] at h; exact Option.noConfusion h
      | some st =>
        rw [hcl, obind_some] at h
        cases hco : (calc_price_with_tz prices tz st now c.power).toOption with
        | none => rw [hco, obind_none] at h; exact Option.noConfusion h
        | some cost =>
          rw [hco, obind_some] at h
          have hac : already_charged c.power d now =
              some ((numSeconds (now - st) : ℚ) / 3600 * c.power) := by
            rw [already_charged, hcl]; rfl
          rw [hac, obind_some] at h
          unfold ChargingDetail.update_state at h
          by_cases hst : d.status ≠ ChargeStatus.Charging
          · rw [if_pos hst] at h
            exact Option.noConfusion h
          · rw [if_neg hst] at h
            rw [obind_some] at h
            injection h with h
            subst h
            rw [inv_iff]
            rw [hq] at h1 h2
            refine ⟨by simpa using h1, ?_, ?_⟩
            · exact h2
            · push_neg at hst
              show true = (d.status == ChargeStatus.Charging)
              rw [hst]
              decide
    · rw [Bool.not_eq_true] at hw
      rw [hw] at h
      simp only [Bool.not_false] at h
      rw [if_pos trivial] at h
      injection h with h
      subst h
      exact hinv

theorem complete_charging_inv (prices : Prices) (tz now : ℤ) (c : Charge)
    (hinv : c.inv = true) :
    ∀ r c', c.complete_charging prices tz now = some (some (r, c')) → c'.inv = true := by
  intro r c' h
  obtain ⟨h1, h2, h3⟩ := (inv_iff c).mp hinv
  unfold Charge.complete_charging at h
  cases hq : c.queue with
  | nil =>
    rw [hq] at h
    injection h with h
    exact Option.noConfusion h
  | cons d rest =>
    rw [hq] at h
    dsimp only at h
    by_cases hw : c.working
    · rw [hw] at h
      simp only [Bool.not_true, Bool.false_eq_true, if_false] at h
      cases hcl : d.clone_start_time with
      | none => rw [hcl, obind_none] at h; exact Option.noConfusion h
      | some st =>
        rw [hcl, obind_some] at h
        cases hco : (calc_price_with_tz prices tz st now c.power).toOption with
        | none => rw [hco, obind_none] at h; exact Option.noConfusion h
        | some cost =>
          rw [hco, obind_some] at h
          have hac : already_charged c.power d now =
              some ((numSeconds (now - st) : ℚ) / 3600 * c.power) := by
            rw [already_charged, hcl]; rfl
          rw [hac, obind_some] at h
          unfold ChargingDetail.complete at h
          by_cases hst : d.status ≠ ChargeStatus.Charging
          · rw [if_pos hst] at h
            exact Option.noConfusion h
          · rw [if_neg hst] at h
            rw [obind_some] at h
            simp only [Option.map_some'] at h
            injection h with h
            injection h with h
            injection h with h4 h5
            subst h5
            rw [inv_iff]
            rw [hq] at h1 h2
            simp only [onlyHeadCharging] at h2
            obtain ⟨ho, hh⟩ := tail_props rest h2
            refine ⟨by simp at h1 ⊢; omega, ho, ?_⟩
            rw [hh]
    · rw [Bool.not_eq_true] at hw
      rw [hw] at h
      simp only [Bool.not_false] at h
      rw [if_pos trivial] at h
      injection h with h
      exact Option.noConfusion h

theorem cancel_charging_inv (prices : Prices) (tz now : ℤ) (c : Charge)
    (hinv : c.inv = true) :
    ∀ id r c', c.cancel_charging prices tz now id = some (.ok (r, c')) →
      c'.inv = true := by
  intro id r c' h
  obtain ⟨h1, h2, h3⟩ := (inv_iff c).mp hinv
  unfold Charge.cancel_charging at h
  cases hidx : c.queue.findIdx? (fun d => d.id == id) with
  | none =>
    rw [hidx] at h
    injection h with h
    exact Except.noConfusion h
  | some pos =>
    rw [hidx] at h
    dsimp only at h
    cases hget : c.queue[pos]? with
    | none => rw [hget] at h; exact Option.noConfusion h
    | some d =>
      rw [hget] at h
      dsimp only at h
      by_cases hpos : pos = 0
      · subst hpos
        rw [if_pos rfl] at h
        cases hq : c.queue with
        | nil => rw [hq] at hget; exact Option.noConfusion hget
        | cons a rest =>
          rw [hq] at hget
          have had : a = d := by simpa using hget
          subst had
          cases hcl : a.clone_start_time with
          | none => rw [hcl, obind_none] at h; exact Option.noConfusion h
          | some st =>
            rw [hcl, obind_some] at h
            cases hco : (calc_price_with_tz prices tz st now c.power).toOption with
            | none => rw [hco, obind_none] at h; exact Option.noConfusion h
            | some cost =>
              rw [hco, obind_some] at h
              have hac : already_charged c.power a now =
                  some ((numSeconds (now - st) : ℚ) / 3600 * c.power) := by
                rw [already_charged, hcl]; rfl
              rw [hac, obind_some] at h
              unfold ChargingDetail.interrupt at h
              by_cases hst : a.status ≠ ChargeStatus.Charging ∧ a.status ≠ ChargeStatus.Waiting
              · rw [if_pos hst] at h; exact Option.noConfusion h
              · rw [if_neg hst] at h
                rw [obind_some] at h
                simp only [Option.map_some'] at h
                injection h with h
                injection h with h
                injection h with h4 h5
                subst h5
                rw [inv_iff]
                rw [hq] at h1 h2
                simp only [onlyHeadCharging] at h2
                obtain ⟨ho, hh⟩ := tail_props rest h2
                refine ⟨?_, ?_, ?_⟩
                · simp only [hq, List.eraseIdx_cons_zero]
                  simp at h1
                  omega
                · simp only [hq, List.eraseIdx_cons_zero]
                  exact ho
                · simp only [hq, List.eraseIdx_cons_zero]
                  rw [hh]
      · rw [if_neg hpos] at h
        cases hac : already_charged c.power d now with
        | none => rw [hac, obind_none] at h; exact Option.noConfusion h
        | some ac =>
          rw [hac, obind_some] at h
          have hcsw : d.status ≠ ChargeStatus.Waiting := by
            intro hsw
            unfold already_charged ChargingDetail.clone_start_time at hac
            rw [if_pos hsw] at hac
            exact Option.noConfusion hac
          unfold ChargingDetail.interrupt at h
          by_cases hst : d.status ≠ ChargeStatus.Charging ∧ d.status ≠ ChargeStatus.Waiting
          · rw [if_pos hst] at h; exact Option.noConfusion h
          · have hch : d.status = ChargeStatus.Charging := by
              by_cases hc2 : d.status = ChargeStatus.Charging
              · exact hc2
              · exact absurd ⟨hc2, hcsw⟩ hst
            obtain ⟨k, hk⟩ := Nat.exists_eq_succ_of_ne_zero hpos
            subst hk
            cases hq : c.queue with
            | nil => rw [hq] at hget; exact Option.noConfusion hget
            | cons a rest =>
              rw [hq] at hget h2
              rw [List.getElem?_cons_succ] at hget
              have hd_mem : d ∈ rest := List.getElem?_mem hget
              simp only [onlyHeadCharging, List.all_eq_true] at h2
              have hcon := h2 d hd_mem
              rw [hch] at hcon
              exact absurd hcon (by decide)

theorem close_inv (prices : Prices) (tz now : ℤ) (c : Charge) (hinv : c.inv = true) :
    ∀ r c', c.close prices tz now = some (r, c') → c'.inv = true := by
  intro r c' h
  unfold Charge.close at h
  obtain ⟨h1, h2, h3⟩ := (inv_iff c).mp hinv
  cases hq : c.queue with
  | nil =>
    rw [hq] at h
    injection h with h
    injection h with h4 h5
    subst h5
    rw [inv_iff]
    refine ⟨?_, ?_, ?_⟩
    · simp only [hq] at h1 ⊢
      simp

    · simp [hq, onlyHeadCharging]
    · simp [hq, headCharging]
  | cons d rest =>
    rw [hq] at h
    dsimp only at h
    cases hcl : d.clone_start_time with
    | none => rw [hcl, obind_none] at h; exact Option.noConfusion h
    | some st =>
      rw [hcl, obind_some] at h
      cases hco : (calc_price_with_tz prices tz st now c.power).toOption with
      | none => rw [hco, obind_none] at h; exact Option.noConfusion h
      | some cost =>
        rw [hco, obind_some] at h
        have hac : already_charged c.power d now =
            some ((numSeconds (now - st) : ℚ) / 3600 * c.power) := by
          rw [already_charged, hcl]; rfl
        rw [hac, obind_some] at h
        unfold ChargingDetail.interrupt at h
        by_cases hst : d.status ≠ ChargeStatus.Charging ∧ d.status ≠ ChargeStatus.Waiting
        · rw [if_pos hst] at h; exact Option.noConfusion h
        · rw [if_neg hst] at h
          rw [obind_some] at h
          injection h with h
          injection h with h4 h5
          subst h5
          rw [inv_iff]
          exact ⟨Nat.zero_le _, rfl, rfl⟩

theorem breakdown_inv (prices : Prices) (tz now : ℤ) (c : Charge) (hinv : c.inv = true) :
    ∀ r c', c.breakdown prices tz now = some (r, c') → c'.inv = true := by
  intro r c' h
  exact close_inv prices tz now c hinv r c' h

-- ===== C8 theorem =====
/-- C8: every station operation — `add_detail` (with a ready session, the
shape the program enqueues), `start_charging`, `update_charging`,
`complete_charging`, `cancel_charging`, `close` and `breakdown` — preserves
the station invariant: the queue length never exceeds the configured capacity,
only the head position may hold a Charging session, and `working` is true
exactly when the queue is non-empty with a Charging head.  Operations that
panic produce no successor state; error returns leave the station unchanged. -/
theorem station_ops_preserve_invariant (prices : Prices) (tz now : ℤ) (c : Charge)
    (hinv : c.inv = true) :
    (∀ d, d.is_ready = true → (c.add_detail d).inv = true) ∧
    (∀ c', c.start_charging now = some c' → c'.inv = true) ∧
    (∀ c', c.update_charging prices tz now = some c' → c'.inv = true) ∧
    (∀ r c', c.complete_charging prices tz now = some (some (r, c')) → c'.inv = true) ∧
    (∀ id r c', c.cancel_charging prices tz now id = some (.ok (r, c')) → c'.inv = true) ∧
    (∀ r c', c.close prices tz now = some (r, c') → c'.inv = true) ∧
    (∀ r c', c.breakdown prices tz now = some (r, c') → c'.inv = true) :=
  ⟨fun d hd => add_detail_inv c d hinv (is_ready_waiting d hd),
   start_charging_inv now c hinv,
   update_charging_inv prices tz now c hinv,
   complete_charging_inv prices tz now c hinv,
   cancel_charging_inv prices tz now c hinv,
   close_inv prices tz now c hinv,
   breakdown_inv prices tz now c hinv⟩

theorem station_ops_preserve_invariant_witness :
    (stationIdle.add_detail (ChargingDetail.test_new 3)).inv = true :=
  (station_ops_preserve_invariant Prices.new 0 0 stationIdle (by decide)).1
    (ChargingDetail.test_new 3) (by decide)

-- ===== C2 support: chain lemmas =====
theorem lastEnd_append (s : ℕ) (l : List TimePeriod) (b : TimePeriod) :
    lastEnd s (l ++ [b]) = b.end_ := by
  simp [lastEnd]

theorem lastEnd_cons (s : ℕ) (q : TimePeriod) (rest : List TimePeriod) :
    lastEnd s (q :: rest) = lastEnd q.end_ rest := by
  cases rest with
  | nil => rfl
  | cons r t =>
    cases h : (r :: t).getLast? with
    | none => exact absurd (List.getLast?_eq_none_iff.mp h) (by simp)
    | some a => simp [lastEnd, List.getLast?_cons_cons, h]

theorem contiguous_snoc (s : ℕ) (l : List TimePeriod) (b : TimePeriod) :
    contiguousB s (l ++ [b]) = (contiguousB s l && b.start == lastEnd s l) := by
  induction l generalizing s with
  | nil =>
    simp [contiguousB, lastEnd]
  | cons q rest ih =>
    show ((q.start == s) && contiguousB q.end_ (rest ++ [b])) =
        (((q.start == s) && contiguousB q.end_ rest) && (b.start == lastEnd s (q :: rest)))
    rw [ih, lastEnd_cons, Bool.and_assoc]

theorem splitFold_id : ∀ (l : List TimePeriod) (n : ℕ) (acc : List TimePeriod),
    (∀ q ∈ l, ¬(q.start > q.end_ ∧ q.end_ ≠ MIDNIGHT)) →
    l.foldl splitStep (n, acc) = (n, acc ++ l) := by
  intro l
  induction l with
  | nil => intro n acc _; simp
  | cons q rest ih =>
    intro n acc h
    rw [List.foldl_cons]
    have hq : splitStep (n, acc) q = (n, acc ++ [q]) := by
      unfold splitStep
      rw [if_neg (h q (List.mem_cons_self q rest))]
    rw [hq, ih]
    · simp
    · intro r hr
      exact h r (List.mem_cons_of_mem q hr)

theorem splitAtMidnight_id (l : List TimePeriod)
    (hwf : ∀ q ∈ l, ¬(q.start > q.end_ ∧ q.end_ ≠ MIDNIGHT)) :
    splitAtMidnight l = (0, l) := by
  unfold splitAtMidnight
  rw [splitFold_id l 0 [] hwf]
  simp

-- ===== C2 support: sorting =====
theorem mem_insertByStart (q x : TimePeriod) :
    ∀ l : List TimePeriod, x ∈ insertByStart q l ↔ x = q ∨ x ∈ l := by
  intro l
  induction l with
  | nil => simp [insertByStart]
  | cons r t ih =>
    unfold insertByStart
    by_cases hc : q.start ≤ r.start
    · rw [if_pos hc]
      simp [List.mem_cons]
    · rw [if_neg hc]
      simp only [List.mem_cons, ih]
      tauto

theorem insertByStart_ne_nil (q : TimePeriod) (l : List TimePeriod) :
    insertByStart q l ≠ [] := by
  cases l with
  | nil => simp [insertByStart]
  | cons r t =>
    unfold insertByStart
    by_cases hc : q.start ≤ r.start
    · rw [if_pos hc]; simp
    · rw [if_neg hc]; simp

theorem insertByStart_pairwise (q : TimePeriod) :
    ∀ l : List TimePeriod, List.Pairwise (fun a b => a.start ≤ b.start) l →
    List.Pairwise (fun a b => a.start ≤ b.start) (insertByStart q l) := by
  intro l
  induction l with
  | nil => intro _; simp [insertByStart]
  | cons r t ih =>
    intro h
    obtain ⟨hr, ht⟩ := List.pairwise_cons.mp h
    unfold insertByStart
    by_cases hc : q.start ≤ r.start
    · rw [if_pos hc]
      refine List.pairwise_cons.mpr ⟨?_, h⟩
      intro b hb
      rcases List.mem_cons.mp hb with hb | hb
      · subst hb; exact hc
      · exact le_trans hc (hr b hb)
    · rw [if_neg hc]
      refine List.pairwise_cons.mpr ⟨?_, ih ht⟩
      intro b hb
      rcases (mem_insertByStart q b t).mp hb with hb | hb
      · subst hb; omega
      · exact hr b hb

theorem sortByStart_pairwise : ∀ l : List TimePeriod,
    List.Pairwise (fun a b => a.start ≤ b.start) (sortByStart l) := by
  intro l
  induction l with
  | nil => simp [sortByStart]
  | cons q rest ih => exact insertByStart_pairwise q _ ih

theorem mem_sortByStart (x : TimePeriod) : ∀ l : List TimePeriod,
    x ∈ sortByStart l ↔ x ∈ l := by
  intro l
  induction l with
  | nil => simp [sortByStart]
  | cons q rest ih =>
    unfold sortByStart
    rw [mem_insertByStart, ih, List.mem_cons]

theorem sortByStart_ne_nil (l : List TimePeriod) (h : l ≠ []) : sortByStart l ≠ [] := by
  cases l with
  | nil => exact absurd rfl h
  | cons q rest => exact insertByStart_ne_nil q _

-- ===== C2 support: the merge loop =====
theorem mergeLoop_ok_chain (s0 : ℕ) :
    ∀ (l : List TimePeriod) (cur : TimePeriod) (acc out : List TimePeriod),
      contiguousB s0 (acc ++ [cur]) = true →
      (∀ r ∈ acc, r.start < r.end_) → cur.start < cur.end_ →
      (∀ r ∈ l, cur.start ≤ r.start ∧ r.start < r.end_) →
      List.Pairwise (fun a b => a.start ≤ b.start) l →
      mergeLoop cur l acc = .ok out →
      contiguousB s0 out = true ∧ (∀ r ∈ out, r.start < r.end_) ∧ out ≠ [] := by
  intro l
  induction l with
  | nil =>
    intro cur acc out hch hacc hcur _ _ h
    unfold mergeLoop at h
    injection h with h
    subst h
    refine ⟨hch, ?_, by simp⟩
    intro r hr
    rcases List.mem_append.mp hr with hr | hr
    · exact hacc r hr
    · rw [List.mem_singleton.mp hr]; exact hcur
  | cons q rest ih =>
    intro cur acc out hch hacc hcur hl hpw h
    obtain ⟨hq, hrest⟩ := List.pairwise_cons.mp hpw
    have hqs := hl q (List.mem_cons_self q rest)
    unfold mergeLoop at h
    by_cases h1 : q.start < cur.end_
    · rw [if_pos h1] at h
      by_cases h2 : q.price ≠ cur.price
      · rw [if_pos h2] at h; exact Except.noConfusion h
      · rw [if_neg h2] at h
        refine ih ⟨cur.start, q.end_, cur.price⟩ acc out ?_ hacc ?_ ?_ hrest h
        · rw [contiguous_snoc] at hch ⊢
          exact hch
        · show cur.start < q.end_
          omega
        · intro r hr
          exact ⟨(hl r (List.mem_cons_of_mem q hr)).1, (hl r (List.mem_cons_of_mem q hr)).2⟩
    · rw [if_neg h1] at h
      by_cases h2 : q.start > cur.end_
      · rw [if_pos h2] at h
        refine ih q (acc ++ [cur, ⟨cur.end_, q.start, 0⟩]) out ?_ ?_ hqs.2 ?_ hrest h
        · have hshape : acc ++ [cur, (⟨cur.end_, q.start, 0⟩ : TimePeriod)] ++ [q]
              = ((acc ++ [cur]) ++ [(⟨cur.end_, q.start, 0⟩ : TimePeriod)]) ++ [q] := by
            simp
          rw [hshape, contiguous_snoc, contiguous_snoc, lastEnd_append, lastEnd_append, hch]
          simp
        · intro r hr
          rcases List.mem_append.mp hr with hr | hr
          · exact hacc r hr
          · rcases List.mem_cons.mp hr with hr | hr
            · subst hr; exact hcur
            · rw [List.mem_singleton.mp hr]
              show cur.end_ < q.start
              exact h2
        · intro r hr
          exact ⟨hq r hr, (hl r (List.mem_cons_of_mem q hr)).2⟩
      · have heq : q.start = cur.end_ := by omega
        rw [if_neg h2] at h
        refine ih q (acc ++ [cur]) out ?_ ?_ hqs.2 ?_ hrest h
        · have hshape : acc ++ [cur] ++ [q] = (acc ++ [cur]) ++ [q] := rfl
          rw [hshape, contiguous_snoc, lastEnd_append, hch]
          simp [heq]
        · intro r hr
          rcases List.mem_append.mp hr with hr | hr
          · exact hacc r hr
          · rw [List.mem_singleton.mp hr]; exact hcur
        · intro r hr
          exact ⟨hq r hr, (hl r (List.mem_cons_of_mem q hr)).2⟩

theorem mergeLoop_error_overlap (src : List TimePeriod) :
    ∀ (l : List TimePeriod) (cur : TimePeriod) (acc : List TimePeriod) (q0 : TimePeriod),
      (∀ r ∈ l, r ∈ src ∧ r.start < r.end_) →
      List.Pairwise (fun a b => a.start ≤ b.start) l →
      q0 ∈ src → q0.end_ = cur.end_ → q0.price = cur.price →
      (∀ r ∈ l, q0.start ≤ r.start) →
      mergeLoop cur l acc = .error overlapMsg →
      ∃ a ∈ src, ∃ b ∈ src, overlapping a b ∧ a.price ≠ b.price := by
  intro l
  induction l with
  | nil =>
    intro cur acc q0 _ _ _ _ _ _ h
    exact Except.noConfusion h
  | cons q rest ih =>
    intro cur acc q0 hsrc hpw hq0 hq0e hq0p hq0le h
    obtain ⟨hqr, hrest⟩ := List.pairwise_cons.mp hpw
    have hqsrc := hsrc q (List.mem_cons_self q rest)
    unfold mergeLoop at h
    by_cases h1 : q.start < cur.end_
    · rw [if_pos h1] at h
      by_cases h2 : q.price ≠ cur.price
      · refine ⟨q0, hq0, q, hqsrc.1, ?_, ?_⟩
        · show max q0.start q.start < min (endValue q0) (endValue q)
          have he0 : endValue q0 = q0.end_ := by
            unfold endValue
            rw [if_neg]
            show ¬ q0.end_ = MIDNIGHT
            have : q.start < q0.end_ := by rw [hq0e]; exact h1
            show ¬ q0.end_ = 0
            omega
          have he1 : endValue q = q.end_ := by
            unfold endValue
            rw [if_neg]
            show ¬ q.end_ = 0
            have := hqsrc.2
            omega
          rw [he0, he1, hq0e]
          have h3 := hq0le q (List.mem_cons_self q rest)
          have h4 := hqsrc.2
          omega
        · rw [hq0p]
          intro hcc
          exact h2 hcc.symm
      · rw [if_neg h2] at h
        refine ih ⟨cur.start, q.end_, cur.price⟩ acc q ?_ hrest hqsrc.1 rfl ?_ hqr h
        · intro r hr
          exact hsrc r (List.mem_cons_of_mem q hr)
        · push_neg at h2
          exact h2
    · rw [if_neg h1] at h
      by_cases h2 : q.start > cur.end_
      · rw [if_pos h2] at h
        refine ih q _ q ?_ hrest hqsrc.1 rfl rfl hqr h
        intro r hr
        exact hsrc r (List.mem_cons_of_mem q hr)
      · rw [if_neg h2] at h
        refine ih q _ q ?_ hrest hqsrc.1 rfl rfl hqr h
        intro r hr
        exact hsrc r (List.mem_cons_of_mem q hr)

-- ===== C2 support: consequences of a contiguous chain =====
theorem chain_start_lb : ∀ (l : List TimePeriod) (s : ℕ), contiguousB s l = true →
    (∀ r ∈ l.dropLast, r.start < r.end_) → ∀ b ∈ l, s ≤ b.start := by
  intro l
  induction l with
  | nil => intro s _ _ b hb; exact absurd hb (by simp)
  | cons q rest ih =>
    intro s hch hdl b hb
    simp only [contiguousB, Bool.and_eq_true, beq_iff_eq] at hch
    rcases List.mem_cons.mp hb with hb | hb
    · subst hb; omega
    · cases rest with
      | nil => exact absurd hb (by simp)
      | cons r t =>
        have hdl' : ∀ x ∈ (r :: t).dropLast, x.start < x.end_ := by
          intro x hx
          apply hdl
          rw [List.dropLast_cons₂]
          exact List.mem_cons_of_mem q hx
        have hq : q.start < q.end_ := by
          apply hdl
          rw [List.dropLast_cons₂]
          exact List.mem_cons_self q _
        have := ih q.end_ hch.2 hdl' b hb
        omega

theorem chain_sorted : ∀ (l : List TimePeriod) (s : ℕ), contiguousB s l = true →
    (∀ r ∈ l.dropLast, r.start < r.end_) → sortedByStartB l = true := by
  intro l
  induction l with
  | nil => intro s _ _; rfl
  | cons q rest ih =>
    intro s hch hdl
    simp only [contiguousB, Bool.and_eq_true, beq_iff_eq] at hch
    cases rest with
    | nil => rfl
    | cons r t =>
      have hdl' : ∀ x ∈ (r :: t).dropLast, x.start < x.end_ := by
        intro x hx
        apply hdl
        rw [List.dropLast_cons₂]
        exact List.mem_cons_of_mem q hx
      have hq : q.start < q.end_ := by
        apply hdl
        rw [List.dropLast_cons₂]
        exact List.mem_cons_self q _
      have hr : r.start = q.end_ := by
        have := hch.2
        simp only [contiguousB, Bool.and_eq_true, beq_iff_eq] at this
        exact this.1
      show (decide (q.start ≤ r.start) && sortedByStartB (r :: t)) = true
      rw [ih q.end_ hch.2 hdl']
      simp only [Bool.and_true, decide_eq_true_iff]
      omega

theorem chain_pairwise : ∀ (l : List TimePeriod) (s : ℕ), contiguousB s l = true →
    (∀ r ∈ l.dropLast, r.start < r.end_) →
    List.Pairwise (fun a b => a.end_ ≤ b.start) l := by
  intro l
  induction l with
  | nil => intro s _ _; exact List.Pairwise.nil
  | cons q rest ih =>
    intro s hch hdl
    simp only [contiguousB, Bool.and_eq_true, beq_iff_eq] at hch
    have hdl' : ∀ x ∈ rest.dropLast, x.start < x.end_ := by
      intro x hx
      cases rest with
      | nil => exact absurd hx (by simp)
      | cons r t =>
        apply hdl
        rw [List.dropLast_cons₂]
        exact List.mem_cons_of_mem q hx
    refine List.pairwise_cons.mpr ⟨?_, ih q.end_ hch.2 hdl'⟩
    intro b hb
    exact chain_start_lb rest q.end_ hch.2 hdl' b hb

-- ===== C7 support =====
theorem mergeLoop_chain_id : ∀ (l : List TimePeriod) (cur : TimePeriod)
    (acc : List TimePeriod), contiguousB cur.end_ l = true →
    mergeLoop cur l acc = .ok (acc ++ cur :: l) := by
  intro l
  induction l with
  | nil => intro cur acc _; rfl
  | cons q rest ih =>
    intro cur acc hch
    simp only [contiguousB, Bool.and_eq_true, beq_iff_eq] at hch
    unfold mergeLoop
    rw [if_neg (by omega), if_neg (by omega)]
    rw [ih q (acc ++ [cur]) hch.2]
    simp

theorem sortedByStartB_tail (q : TimePeriod) (rest : List TimePeriod)
    (h : sortedByStartB (q :: rest) = true) : sortedByStartB rest = true := by
  cases rest with
  | nil => rfl
  | cons r t =>
    have h2 : (decide (q.start ≤ r.start) && sortedByStartB (r :: t)) = true := h
    simp only [Bool.and_eq_true] at h2
    exact h2.2

theorem sortByStart_id : ∀ l : List TimePeriod, sortedByStartB l = true →
    sortByStart l = l := by
  intro l
  induction l with
  | nil => intro _; rfl
  | cons q rest ih =>
    intro h
    unfold sortByStart
    rw [ih (sortedByStartB_tail q rest h)]
    cases rest with
    | nil => rfl
    | cons r t =>
      have hle : (decide (q.start ≤ r.start) && sortedByStartB (r :: t)) = true := h
      simp only [Bool.and_eq_true, decide_eq_true_iff] at hle
      unfold insertByStart
      rw [if_pos hle.1]

-- ===== C2 assembly =====
theorem optimize_ok_shape (p : Prices) (hne : p.periods ≠ [])
    (hwf : ∀ q ∈ p.periods, q.start < q.end_) (res : Prices)
    (hok : p.optimize = .ok res) :
    res.is_optimized = true ∧ res.periods ≠ [] ∧
      contiguousB MIDNIGHT res.periods = true ∧
      lastEnd 1 res.periods = MIDNIGHT ∧
      (∀ r ∈ res.periods.dropLast, r.start < r.end_) := by
  unfold Prices.optimize at hok
  rw [if_neg (by simp [hne])] at hok
  have hsplit : splitAtMidnight p.periods = (0, p.periods) :=
    splitAtMidnight_id p.periods (by intro q hq; have := hwf q hq; omega)
  rw [hsplit] at hok
  dsimp only at hok
  rw [if_neg (by omega)] at hok
  have hsne : sortByStart p.periods ≠ [] := sortByStart_ne_nil p.periods hne
  cases hsort : sortByStart p.periods with
  | nil => exact absurd hsort hsne
  | cons q rest =>
    rw [hsort] at hok
    have hqmem : q ∈ p.periods := (mem_sortByStart q p.periods).mp (by rw [hsort]; simp)
    have hpw : List.Pairwise (fun a b => a.start ≤ b.start) (q :: rest) := by
      rw [← hsort]; exact sortByStart_pairwise p.periods
    obtain ⟨hqr, hrest⟩ := List.pairwise_cons.mp hpw
    have hqwf : q.start < q.end_ := hwf q hqmem
    unfold mergePeriods at hok
    dsimp only at hok
    set init := (if q.start ≠ MIDNIGHT then [(⟨MIDNIGHT, q.start, 0⟩ : TimePeriod)] else [])
      with hinit
    cases hmerge : mergeLoop q rest init with
    | error e =>
      rw [hmerge] at hok
      exact Except.noConfusion hok
    | ok merged =>
      rw [hmerge] at hok
      dsimp only at hok
      have hchinit : contiguousB MIDNIGHT (init ++ [q]) = true := by
        rw [hinit]
        by_cases hq0 : q.start = MIDNIGHT
        · rw [if_neg (by simpa using hq0)]
          simp [contiguousB, hq0]
        · rw [if_pos (by simpa using hq0)]
          simp [contiguousB]
      have hinitwf : ∀ r ∈ init, r.start < r.end_ := by
        rw [hinit]
        by_cases hq0 : q.start = MIDNIGHT
        · rw [if_neg (by simpa using hq0)]
          intro r hr
          exact absurd hr (by simp)
        · rw [if_pos (by simpa using hq0)]
          intro r hr
          rw [List.mem_singleton.mp hr]
          show MIDNIGHT < q.start
          have : q.start ≠ 0 := hq0
          show 0 < q.start
          omega
      have hlwf : ∀ r ∈ rest, q.start ≤ r.start ∧ r.start < r.end_ := by
        intro r hr
        refine ⟨hqr r hr, ?_⟩
        exact hwf r ((mem_sortByStart r p.periods).mp (by rw [hsort]; simp [hr]))
      obtain ⟨hch, hmwf, hmne⟩ :=
        mergeLoop_ok_chain MIDNIGHT rest q init merged hchinit hinitwf hqwf hlwf hrest hmerge
      cases hlast : merged.getLast? with
      | none => exact absurd (List.getLast?_eq_none_iff.mp hlast) hmne
      | some lastP =>
        rw [hlast] at hok
        dsimp only at hok
        have hlp : lastP ∈ merged := List.mem_of_getLast?_eq_some hlast
        have hlpe : lastP.end_ ≠ MIDNIGHT := by
          have := hmwf lastP hlp
          show ¬ lastP.end_ = 0
          omega
        rw [if_pos hlpe] at hok
        injection hok with hok
        subst hok
        refine ⟨rfl, by simp, ?_, ?_, ?_⟩
        · show contiguousB MIDNIGHT (merged ++ [(⟨lastP.end_, MIDNIGHT, 0⟩ : TimePeriod)]) = true
          rw [contiguous_snoc, hch]
          have : lastEnd MIDNIGHT merged = lastP.end_ := by
            unfold lastEnd
            rw [hlast]
            rfl
          rw [this]
          simp
        · show lastEnd 1 (merged ++ [(⟨lastP.end_, MIDNIGHT, 0⟩ : TimePeriod)]) = MIDNIGHT
          rw [lastEnd_append]
        · show ∀ r ∈ (merged ++ [(⟨lastP.end_, MIDNIGHT, 0⟩ : TimePeriod)]).dropLast, r.start < r.end_
          rw [List.dropLast_concat]
          intro r hr
          exact hmwf r hr

-- ===== C2 amended theorem =====
/-- C2 (amended): for every non-empty input period list in which every
period's start is strictly before its end (no period touches or crosses
midnight), when `optimize` succeeds the resulting period sequence is
non-empty, marked optimized, contiguous from 00:00 (each period's end equals
the next period's start), sorted by start, ends exactly at midnight
(final `end` = 00:00), pairwise non-overlapping, and every period before the
final one is non-empty — so the periods tile the full day [00:00,24:00) with
no gaps or overlaps; and whenever `optimize` returns the Overlap error, two
overlapping input periods have different prices. -/
theorem optimize_tiles_day (p : Prices) (hne : p.periods ≠ [])
    (hwf : ∀ q ∈ p.periods, q.start < q.end_) :
    (∀ res, p.optimize = .ok res →
      res.periods ≠ [] ∧ res.is_optimized = true ∧
      contiguousB MIDNIGHT res.periods = true ∧
      sortedByStartB res.periods = true ∧
      lastEnd 1 res.periods = MIDNIGHT ∧
      List.Pairwise (fun a b => a.end_ ≤ b.start) res.periods ∧
      (∀ r ∈ res.periods.dropLast, r.start < r.end_)) ∧
    (p.optimize = .error overlapMsg →
      ∃ a ∈ p.periods, ∃ b ∈ p.periods, overlapping a b ∧ a.price ≠ b.price) := by
  constructor
  · intro res hok
    obtain ⟨hio, hresne, hch, hle, hdl⟩ := optimize_ok_shape p hne hwf res hok
    exact ⟨hresne, hio, hch, chain_sorted _ MIDNIGHT hch hdl, hle,
      chain_pairwise _ MIDNIGHT hch hdl, hdl⟩
  · intro herr
    unfold Prices.optimize at herr
    rw [if_neg (by simp [hne])] at herr
    rw [splitAtMidnight_id p.periods (by intro x hx; have := hwf x hx; omega)] at herr
    dsimp only at herr
    rw [if_neg (by omega)] at herr
    cases hsort : sortByStart p.periods with
    | nil => exact absurd hsort (sortByStart_ne_nil p.periods hne)
    | cons q rest =>
      rw [hsort] at herr
      unfold mergePeriods at herr
      dsimp only at herr
      have hpw : List.Pairwise (fun a b => a.start ≤ b.start) (q :: rest) := by
        rw [← hsort]; exact sortByStart_pairwise p.periods
      obtain ⟨hqr, hrest⟩ := List.pairwise_cons.mp hpw
      have hqmem : q ∈ p.periods := (mem_sortByStart q p.periods).mp (by rw [hsort]; simp)
      cases hmerge : mergeLoop q rest
          (if q.start ≠ MIDNIGHT then [(⟨MIDNIGHT, q.start, 0⟩ : TimePeriod)] else []) with
      | ok merged =>
        rw [hmerge] at herr
        dsimp only at herr
        cases hlast : merged.getLast? with
        | none =>
          rw [hlast] at herr
          dsimp only at herr
          injection herr with he
          exact absurd he (by decide)
        | some lastP =>
          rw [hlast] at herr
          dsimp only at herr
          exact Except.noConfusion herr
      | error e =>
        rw [hmerge] at herr
        dsimp only at herr
        injection herr with he
        subst he
        refine mergeLoop_error_overlap p.periods rest q _ q ?_ hrest hqmem rfl rfl hqr hmerge
        intro r hr
        exact ⟨(mem_sortByStart r p.periods).mp (by rw [hsort]; simp [hr]),
          hwf r ((mem_sortByStart r p.periods).mp (by rw [hsort]; simp [hr]))⟩

theorem optimize_tiles_day_witness :
    pGood.periods ≠ [] ∧
    pGoodRes.periods ≠ [] ∧ pGoodRes.is_optimized = true ∧
      contiguousB MIDNIGHT pGoodRes.periods = true ∧
      sortedByStartB pGoodRes.periods = true ∧
      lastEnd 1 pGoodRes.periods = MIDNIGHT ∧
      List.Pairwise (fun a b => a.end_ ≤ b.start) pGoodRes.periods ∧
      (∀ r ∈ pGoodRes.periods.dropLast, r.start < r.end_) :=
  ⟨by decide,
   (optimize_tiles_day pGood (by decide) (by decide)).1 pGoodRes (by rfl)⟩

-- ===== C7 amended theorem =====
theorem prices_eta (r : Prices) (h : r.is_optimized = true) :
    ({ periods := r.periods, service_fee := r.service_fee, is_optimized := true } : Prices)
      = r := by
  cases r with
  | mk pp ff oo =>
    simp only at h
    rw [h]

/-- C7 (amended): for every table produced by a successful `optimize` run on
a non-empty input whose periods all have start strictly before end, running
`optimize` a second time succeeds and leaves the table exactly unchanged. -/
theorem optimize_idempotent (p : Prices) (hne : p.periods ≠ [])
    (hwf : ∀ q ∈ p.periods, q.start < q.end_) :
    ∀ res, p.optimize = .ok res → res.optimize = .ok res := by
  intro res hok
  obtain ⟨hio, hresne, hch, hle, hdl⟩ := optimize_ok_shape p hne hwf res hok
  have hlastex : ∃ lp, res.periods.getLast? = some lp ∧ lp.end_ = MIDNIGHT := by
    cases hl : res.periods.getLast? with
    | none => exact absurd (List.getLast?_eq_none_iff.mp hl) hresne
    | some lp =>
      refine ⟨lp, rfl, ?_⟩
      unfold lastEnd at hle
      rw [hl] at hle
      simpa using hle
  obtain ⟨lp, hlp, hlpe⟩ := hlastex
  have hsplit : splitAtMidnight res.periods = (0, res.periods) := by
    apply splitAtMidnight_id
    intro x hx
    rw [← List.dropLast_append_getLast? lp hlp] at hx
    rcases List.mem_append.mp hx with hx' | hx'
    · have := hdl x hx'; omega
    · rw [List.mem_singleton.mp hx']
      intro hcon
      exact hcon.2 hlpe
  have hsortid : sortByStart res.periods = res.periods :=
    sortByStart_id _ (chain_sorted _ MIDNIGHT hch hdl)
  unfold Prices.optimize
  rw [if_neg (by simp [hresne]), hsplit]
  dsimp only
  rw [if_neg (by omega), hsortid]
  cases hq : res.periods with
  | nil => exact absurd hq hresne
  | cons q rest =>
    unfold mergePeriods
    dsimp only
    have hq0 : q.start = MIDNIGHT := by
      rw [hq] at hch
      simp only [contiguousB, Bool.and_eq_true, beq_iff_eq] at hch
      exact hch.1
    have hch' : contiguousB q.end_ rest = true := by
      rw [hq] at hch
      simp only [contiguousB, Bool.and_eq_true, beq_iff_eq] at hch
      exact hch.2
    rw [if_neg (by simp [hq0])]
    rw [mergeLoop_chain_id rest q [] hch']
    rw [show ([] ++ q :: rest : List TimePeriod) = q :: rest from rfl]
    dsimp only
    rw [show (q :: rest : List TimePeriod).getLast? = some lp from by rw [← hq]; exact hlp]
    dsimp only
    rw [if_neg (by simpa using hlpe)]
    rw [← hq]
    rw [prices_eta res hio]

theorem optimize_idempotent_witness :
    pGood7.optimize = .ok pGood7res ∧ pGood7res.optimize = .ok pGood7res :=
  ⟨by rfl, optimize_idempotent pGood7 (by decide) (by decide) pGood7res (by rfl)⟩
